import Mathlib

/-! # cache_repos: a shallow embedding of `src/cache_repos/main.go`

The program reads four environment variables, pages through the repositories
of a GitHub organization, projects every repository onto a small summary
record, serializes the summaries with `encoding/json` and puts the bytes into
an S3 object.

Modelling conventions

* A Go slice is `GoSlice α`: either `nil` or a backing list.  The builtin
  `append` is `GoSlice.append`.
* A Go pointer is `Ptr α := Option α`; dereferencing `none` panics.
* Go `int` is `Int` (no arithmetic is performed on it by the program; the
  64 bit range only matters when a number is read back from JSON).
* Go `string` is `String`: text made of Unicode scalar values.  (Every string
  the program handles is such text: it comes out of the provider client's
  JSON decoding or out of the formatting of a time.)
* The outside world (process environment, AWS session creation, GitHub API,
  S3 API) is passed in as functions; calls that leave the process are recorded in a log.
* The `for options.Page != 0` loop may run forever, so it is driven by fuel;
  for the listing `none` means that the fuel ran out, and an invocation of
  `Handle` whose listing has not ended is reported as still `running`.
* `log.Println` calls are not modelled.
-/

namespace CacheRepos

/-! ## Go values -/

/-- A Go slice value: the `nil` slice, or a slice with a backing array. -/
inductive GoSlice (α : Type) where
  | nil : GoSlice α
  | lit (elems : List α) : GoSlice α
deriving DecidableEq, Repr

/-- The elements of a slice, in index order (`nil` has none). -/
def GoSlice.toList {α : Type} : GoSlice α → List α
  | .nil => []
  | .lit xs => xs

/-- Builtin `len`. -/
def GoSlice.len {α : Type} (s : GoSlice α) : Nat := s.toList.length

/-- Builtin `append(s, xs...)`.  With nothing to add the capacity of `s` is
enough and `s` itself comes back (so `nil` stays `nil`); otherwise the result
is a slice with a backing array holding the old and the new elements. -/
def GoSlice.append {α : Type} (s : GoSlice α) (xs : List α) : GoSlice α :=
  match xs with
  | [] => s
  | x :: rest => .lit (s.toList ++ x :: rest)

/-- A Go pointer: `none` is the nil pointer. -/
abbrev Ptr (α : Type) := Option α

/-- Values of the Go interface type `error` that occur in the program. -/
inductive GoError where
  | errorString (s : String)
  | awserr (code message : String)
  | other (s : String)
deriving DecidableEq, Repr

/-- A run-time panic: a nil pointer dereference, or `panic(err)` with an error
value (what `session.Must` raises). -/
inductive Panic where
  | nilDereference
  | value (err : GoError)
deriving DecidableEq, Repr

/-- Pointer dereference `*p` (also the implicit one of `p.f` and `p.m()`). -/
def deref {α : Type} : Ptr α → Except Panic α
  | some a => .ok a
  | none => .error .nilDereference

/-- The library function `errors.New`. -/
def errors.New (text : String) : GoError := .errorString text

/-! ## Data model (lines 21-36) -/

structure EnvConfig where
  GitHubAccessToken : String
  GitHubOrganization : String
  S3Bucket : String
  S3Key : String
deriving DecidableEq, Repr

structure RepositoryInfo where
  Name : String
  Description : String
  Stars : Int
  Forks : Int
  Language : String
  PushedAt : String
  URL : String
deriving DecidableEq, Repr

/-- The fields of `github.Repository` that the program reads.  Every one of
them is a pointer in the library.  `T` stands for `github.Timestamp`. -/
structure Repository (T : Type) where
  Name : Ptr String
  Description : Ptr String
  StargazersCount : Ptr Int
  ForksCount : Ptr Int
  Language : Ptr String
  PushedAt : Ptr T
  HTMLURL : Ptr String
deriving DecidableEq, Repr

/-- The library type `github.ListOptions`. -/
structure ListOptions where
  Page : Int
  PerPage : Int
deriving DecidableEq, Repr

/-- The field of `github.Response` that the program reads. -/
structure Response where
  NextPage : Int
deriving DecidableEq, Repr

/-- The provider call `client.Repositories.ListByOrg(ctx, org, options)`:
an error, or the repositories of the page and the response. -/
abbrev ListByOrg (R : Type) := String → ListOptions → Except GoError (GoSlice R × Response)

/-- The library type `s3.PutObjectInput`, with the fields the program sets. -/
structure PutObjectInput where
  ACL : String
  Bucket : String
  Key : String
  Body : List Char
deriving DecidableEq, Repr

/-- The storage call `client.PutObject(input)`: `none` is the nil error. -/
abbrev PutObject := PutObjectInput → Option GoError

/-- The library call `session.NewSession(aws.NewConfig())`.  It reads the
process environment (and the files the environment names); `none` is the nil
error. -/
abbrev NewSession := (String → Option String) → Option GoError

/-! ## `loadEnvConfig` (lines 70-98) -/

def loadEnvConfig (LookupEnv : String → Option String) : Except GoError EnvConfig := do
  let config : EnvConfig :=
    { GitHubAccessToken := "", GitHubOrganization := "", S3Bucket := "", S3Key := "" }
  let config ← match LookupEnv "GITHUB_ACCESS_TOKEN" with
    | some val => pure { config with GitHubAccessToken := val }
    | none => throw (errors.New "GITHUB_ACCESS_TOKEN undefined")
  let config ← match LookupEnv "GITHUB_ORGANIZATION" with
    | some val => pure { config with GitHubOrganization := val }
    | none => throw (errors.New "GITHUB_ORGANIZATION undefined")
  let config ← match LookupEnv "S3_BUCKET" with
    | some val => pure { config with S3Bucket := val }
    | none => throw (errors.New "S3_BUCKET undefined")
  let config ← match LookupEnv "S3_KEY" with
    | some val => pure { config with S3Key := val }
    | none => throw (errors.New "S3_KEY undefined")
  return config

/-! ## `getAllRepositoriesByOrganization` (lines 114-132) -/

/-- What a call of `getAllRepositoriesByOrganization` leaves behind: the two
returned values and the provider requests it made, oldest first. -/
structure Listing (R : Type) where
  allRepos : GoSlice R
  err : Option GoError
  requests : List ListOptions
deriving DecidableEq, Repr

/-- The loop `for options.Page != 0 { ... }`; one unit of fuel per evaluation of
the loop condition. -/
def getAllRepositoriesByOrganization.loop {R : Type} (client : ListByOrg R) (org : String) :
    Nat → ListOptions → GoSlice R → List ListOptions → Option (Listing R)
  | 0, _, _, _ => none
  | fuel + 1, options, allRepos, requests =>
    if options.Page ≠ 0 then
      match client org options with
      | .error err => some ⟨allRepos, some err, requests ++ [options]⟩
      | .ok (repos, resp) =>
        getAllRepositoriesByOrganization.loop client org fuel
          { options with Page := resp.NextPage } (allRepos.append repos.toList)
          (requests ++ [options])
    else
      some ⟨allRepos, none, requests⟩

def getAllRepositoriesByOrganization {R : Type} (fuel : Nat) (client : ListByOrg R)
    (org : String) : Option (Listing R) :=
  getAllRepositoriesByOrganization.loop client org fuel { Page := 1, PerPage := 100 } .nil []

/-- The requests that the loop makes during its first `fuel` evaluations of the
loop condition, whether or not it has ended by then. -/
def getAllRepositoriesByOrganization.requestsWithin {R : Type} (client : ListByOrg R)
    (org : String) : Nat → ListOptions → List ListOptions
  | 0, _ => []
  | fuel + 1, options =>
    if options.Page ≠ 0 then
      match client org options with
      | .error _ => [options]
      | .ok (_, resp) =>
        options ::
          getAllRepositoriesByOrganization.requestsWithin client org fuel
            { options with Page := resp.NextPage }
    else []

/-! ## `makeRepositoryInfoList` (lines 134-157) -/

/-- The body of the `range` loop (lines 137-151) for one element. -/
def makeRepositoryInfoList.body {T : Type} (tsString : T → String)
    (repo : Ptr (Repository T)) : Except Panic RepositoryInfo := do
  let r ← deref repo
  let name ← deref r.Name
  let stars ← deref r.StargazersCount
  let forks ← deref r.ForksCount
  let pushed ← deref r.PushedAt
  let url ← deref r.HTMLURL
  let repoInfo : RepositoryInfo :=
    { Name := name, Description := "", Stars := stars, Forks := forks, Language := "",
      PushedAt := tsString pushed, URL := url }
  let repoInfo := match r.Description with
    | some d => { repoInfo with Description := d }
    | none => repoInfo
  let repoInfo := match r.Language with
    | some l => { repoInfo with Language := l }
    | none => repoInfo
  return repoInfo

/-- The `range` loop over the remaining elements with the accumulator `repoInfos`. -/
def makeRepositoryInfoList.loop {T : Type} (tsString : T → String) :
    List (Ptr (Repository T)) → GoSlice (Ptr RepositoryInfo) →
      Except Panic (GoSlice (Ptr RepositoryInfo))
  | [], repoInfos => .ok repoInfos
  | repo :: rest, repoInfos =>
    match makeRepositoryInfoList.body tsString repo with
    | .error p => .error p
    | .ok repoInfo =>
      makeRepositoryInfoList.loop tsString rest (repoInfos.append [some repoInfo])

/-- `tsString` is the method `github.Timestamp.String`; it has a value
receiver, so calling it through a nil `*Timestamp` dereferences nil. -/
def makeRepositoryInfoList {T : Type} (tsString : T → String)
    (repos : GoSlice (Ptr (Repository T))) : Except Panic (GoSlice (Ptr RepositoryInfo)) :=
  makeRepositoryInfoList.loop tsString repos.toList .nil

/-! ## `encoding/json`: the encoder behind `json.Marshal` (line 160)

The library is not part of the repository.  Section 4.4 of the specification
prescribes the standard array-of-objects encoding with the keys of the struct
tags; the definitions below spell that encoding out the way the library
produces it for the one type the program marshals, `[]*RepositoryInfo`: a nil
slice and a nil pointer encode as `null`, a slice as a JSON array, a struct as
a JSON object whose keys are the `json:"..."` tags of lines 29-35 in
declaration order (no tag carries `omitempty`), an `int` as its decimal
digits, and a string as a quoted literal in which the quote and the backslash
get a backslash, line feed, carriage return and tab are written with their
short escapes, the other control characters and `<`, `>`, `&` are written as
`\u00XX`, and U+2028, U+2029 as `\u202X`.  (Later releases of the library
write short escapes for U+0008 and U+000C as well; the decoder reads both
forms.)  The output is kept as text (`List Char`) rather than as UTF-8 bytes. -/

/-- Modelled from the spec: the table `hex` of the library's string encoder. -/
def json.hex (n : Nat) : Char := "0123456789abcdef".toList.getD n '0'

/-- Modelled from the spec: how the library's encoder writes one character of a
string (HTML-safe escaping, the default of `json.Marshal`). -/
def json.escapeRune (c : Char) : List Char :=
  if c = '"' ∨ c = '\\' then ['\\', c]
  else if c = '\n' then ['\\', 'n']
  else if c = '\r' then ['\\', 'r']
  else if c = '\t' then ['\\', 't']
  else if c.toNat < 32 ∨ c = '<' ∨ c = '>' ∨ c = '&' then
    ['\\', 'u', '0', '0', json.hex (c.toNat / 16), json.hex (c.toNat % 16)]
  else if c.toNat = 8232 ∨ c.toNat = 8233 then
    ['\\', 'u', '2', '0', '2', json.hex (c.toNat % 16)]
  else [c]

/-- Modelled from the spec: the library's encoder for Go strings. -/
def json.encodeString (s : String) : List Char :=
  '"' :: (s.toList.flatMap json.escapeRune ++ ['"'])

/-- Modelled from the spec: the digit loop of the library function
`strconv.FormatUint` in base 10, most significant digit first; `fuel` bounds
the number of digits. -/
def strconv.formatBits : Nat → Nat → List Char → List Char
  | 0, _, acc => acc
  | fuel + 1, u, acc =>
    if u < 10 then Char.ofNat (48 + u) :: acc
    else strconv.formatBits fuel (u / 10) (Char.ofNat (48 + u % 10) :: acc)

/-- Modelled from the spec: the library function `strconv.FormatInt(i, 10)`,
with which the encoder writes an `int`. -/
def strconv.FormatInt (i : Int) : List Char :=
  if i < 0 then '-' :: strconv.formatBits (i.natAbs + 1) i.natAbs []
  else strconv.formatBits (i.natAbs + 1) i.natAbs []

/-- A value of one of the two field types of `RepositoryInfo`. -/
inductive FieldValue where
  | string (s : String)
  | int (i : Int)
deriving DecidableEq, Repr

/-- The fields of `RepositoryInfo` as the encoder sees them: the key given by
the `json` tag and the value, in declaration order (lines 29-35). -/
def RepositoryInfo.jsonFields (r : RepositoryInfo) : List (String × FieldValue) :=
  [("name", .string r.Name), ("description", .string r.Description),
   ("stars", .int r.Stars), ("forks", .int r.Forks),
   ("language", .string r.Language), ("pushed_at", .string r.PushedAt),
   ("url", .string r.URL)]

/-- Modelled from the spec: the library's encoder for a field value. -/
def json.encodeField : FieldValue → List Char
  | .string s => json.encodeString s
  | .int i => strconv.FormatInt i

/-- Modelled from the spec: the members of an object as the library writes
them, `"key":value` separated by commas. -/
def json.encodeMembers : List (String × FieldValue) → List Char
  | [] => []
  | [kv] => json.encodeString kv.1 ++ ':' :: json.encodeField kv.2
  | kv :: rest =>
    json.encodeString kv.1 ++ ':' :: json.encodeField kv.2 ++ ',' :: json.encodeMembers rest

/-- Modelled from the spec: the library's struct encoder. -/
def json.encodeStruct (r : RepositoryInfo) : List Char :=
  '{' :: (json.encodeMembers r.jsonFields ++ ['}'])

/-- Modelled from the spec: the library's pointer encoder. -/
def json.encodePtr : Ptr RepositoryInfo → List Char
  | none => ['n', 'u', 'l', 'l']
  | some r => json.encodeStruct r

/-- Modelled from the spec: the elements of an array as the library writes
them, separated by commas. -/
def json.encodeElements : List (Ptr RepositoryInfo) → List Char
  | [] => []
  | [p] => json.encodePtr p
  | p :: rest => json.encodePtr p ++ ',' :: json.encodeElements rest

/-- Modelled from the spec: the library's slice encoder. -/
def json.encodeSlice : GoSlice (Ptr RepositoryInfo) → List Char
  | .nil => ['n', 'u', 'l', 'l']
  | .lit xs => '[' :: (json.encodeElements xs ++ [']'])

/-- Modelled from the spec: the library function `json.Marshal` at type
`[]*RepositoryInfo`.  It has no failing case at this type (strings and
integers only, no cycles). -/
def json.Marshal (info : GoSlice (Ptr RepositoryInfo)) : Except GoError (List Char) :=
  .ok (json.encodeSlice info)

/-! ## `writeToS3` (lines 159-173) and `Handle` (lines 38-68) -/

/-- Returns the error value and the `PutObject` calls made. -/
def writeToS3 (client : PutObject) (bucket key : String)
    (info : GoSlice (Ptr RepositoryInfo)) : Option GoError × List PutObjectInput :=
  match json.Marshal info with
  | .error err => (some err, [])
  | .ok infoJSON =>
    let input : PutObjectInput :=
      { ACL := "public-read", Bucket := bucket, Key := key, Body := infoJSON }
    (client input, [input])

/-- How far an invocation has come: it has returned, it has panicked, or it is
still in the listing loop. -/
inductive Outcome where
  | returned (result : Option Unit) (err : Option GoError)
  | panicked (p : Panic)
  | running
deriving DecidableEq, Repr

/-- An invocation of `Handle`: how far it has come, and the calls it has made
to the provider and to the storage service. -/
structure Invocation where
  outcome : Outcome
  requests : List ListOptions
  puts : List PutObjectInput
deriving DecidableEq, Repr

/-- `newGitHubClient` (lines 100-107): the client talks to the API with the
configured access token. -/
def newGitHubClient {R : Type} (api : String → ListByOrg R) (config : EnvConfig) : ListByOrg R :=
  api config.GitHubAccessToken

/-- `newS3Client` (lines 109-112): `session.Must` panics with the error of a
failed session creation; otherwise the client talks to the storage service. -/
def newS3Client (LookupEnv : String → Option String) (newSession : NewSession)
    (service : PutObject) : Except Panic PutObject :=
  match newSession LookupEnv with
  | some err => .error (.value err)
  | none => .ok service

/-- `Handle`; the event and the context are unused.  The state of the
invocation after at most `fuel` evaluations of the condition of the listing
loop: when the loop has not ended by then the invocation is still `running`,
with the requests made so far. -/
def Handle {T : Type} (fuel : Nat) (LookupEnv : String → Option String)
    (newSession : NewSession) (api : String → ListByOrg (Ptr (Repository T)))
    (tsString : T → String) (service : PutObject) : Invocation :=
  match loadEnvConfig LookupEnv with
  | .error err => ⟨.returned none (some err), [], []⟩
  | .ok config =>
    let githubClient := newGitHubClient api config
    match newS3Client LookupEnv newSession service with
    | .error p => ⟨.panicked p, [], []⟩
    | .ok s3Client =>
      match getAllRepositoriesByOrganization fuel githubClient config.GitHubOrganization with
      | none =>
        ⟨.running,
          getAllRepositoriesByOrganization.requestsWithin githubClient
            config.GitHubOrganization fuel { Page := 1, PerPage := 100 }, []⟩
      | some ⟨_, some err, requests⟩ => ⟨.returned none (some err), requests, []⟩
      | some ⟨repos, none, requests⟩ =>
        match makeRepositoryInfoList tsString repos with
        | .error p => ⟨.panicked p, requests, []⟩
        | .ok repoInfos =>
          match writeToS3 s3Client config.S3Bucket config.S3Key repoInfos with
          | (some err, puts) => ⟨.returned none (some err), requests, puts⟩
          | (none, puts) => ⟨.returned none none, requests, puts⟩

/-! ## `encoding/json`: the decoder

The program never decodes; `decode` of section 8 of the specification is what
a consumer of the published object runs, and it is not in the repository.  It
is modelled as `json.Unmarshal` of the same library into a fresh
`[]*RepositoryInfo`: the input must be one JSON value, surrounded by optional
white space; `null` gives the nil slice and the nil pointer, an array gives a
slice, an object gives a struct whose fields are looked up by key (an exact
match with a tag, else a match under case folding), unknown keys are skipped,
a later duplicate key overwrites, `null` for a field leaves it alone, a string
field takes a JSON string and an `int` field a JSON number that
`strconv.ParseInt` reads as a 64 bit integer; everything else is an error. -/

/-- Modelled from the spec: a parsed JSON value (the repository has no decoder);
a number keeps its literal. -/
inductive JSON where
  | null
  | bool (b : Bool)
  | num (lit : List Char)
  | str (s : String)
  | arr (elems : List JSON)
  | obj (members : List (String × JSON))

def json.isSpace (c : Char) : Bool := c = ' ' || c = '\t' || c = '\r' || c = '\n'

def json.skipSpace (cs : List Char) : List Char := cs.dropWhile json.isSpace

def json.isDigit (c : Char) : Bool := 48 ≤ c.toNat && c.toNat ≤ 57

/-- The value of a hexadecimal digit. -/
def json.hexVal (c : Char) : Option Nat :=
  if 48 ≤ c.toNat ∧ c.toNat ≤ 57 then some (c.toNat - 48)
  else if 97 ≤ c.toNat ∧ c.toNat ≤ 102 then some (c.toNat - 87)
  else if 65 ≤ c.toNat ∧ c.toNat ≤ 70 then some (c.toNat - 55)
  else none

/-- The decoder's `getu4`: the code unit of a `\uXXXX` at the head of the input. -/
def json.getu4 : List Char → Option Nat
  | b :: u :: h1 :: h2 :: h3 :: h4 :: _ =>
    if b = '\\' ∧ u = 'u' then
      match json.hexVal h1, json.hexVal h2, json.hexVal h3, json.hexVal h4 with
      | some a, some b, some c, some d => some (((a * 16 + b) * 16 + c) * 16 + d)
      | _, _, _, _ => none
    else none
  | _ => none

/-- One character of the body of a string literal, escapes resolved as the
decoder's `unquote` does (a lone surrogate becomes U+FFFD); `none` for what
the scanner rejects. -/
def json.unquoteRune : List Char → Option (Char × List Char)
  | [] => none
  | c :: rest =>
    if c = '\\' then
      match rest with
      | [] => none
      | e :: rest1 =>
        if e = '"' ∨ e = '\\' ∨ e = '/' then some (e, rest1)
        else if e = 'b' then some (Char.ofNat 8, rest1)
        else if e = 'f' then some (Char.ofNat 12, rest1)
        else if e = 'n' then some ('\n', rest1)
        else if e = 'r' then some ('\r', rest1)
        else if e = 't' then some ('\t', rest1)
        else if e = 'u' then
          match json.getu4 (c :: rest) with
          | none => none
          | some rr =>
            let rest6 := rest1.drop 4
            if 55296 ≤ rr ∧ rr < 57344 then
              match json.getu4 rest6 with
              | some rr1 =>
                if rr < 56320 ∧ 56320 ≤ rr1 ∧ rr1 < 57344 then
                  some (Char.ofNat ((rr - 55296) * 1024 + (rr1 - 56320) + 65536), rest6.drop 6)
                else some (Char.ofNat 65533, rest6)
              | none => some (Char.ofNat 65533, rest6)
            else some (Char.ofNat rr, rest6)
        else none
    else if c = '"' ∨ c.toNat < 32 then none
    else some (c, rest)

/-- The body of a string literal up to and including the closing quote. -/
def json.parseStringBody : Nat → List Char → Option (List Char × List Char)
  | 0, _ => none
  | fuel + 1, cs =>
    match cs with
    | [] => none
    | c :: rest =>
      if c = '"' then some ([], rest)
      else
        match json.unquoteRune cs with
        | none => none
        | some (r, rest1) =>
          (json.parseStringBody fuel rest1).map (fun p => (r :: p.1, p.2))

/-- A string literal after its opening quote. -/
def json.parseString (cs : List Char) : Option (String × List Char) :=
  (json.parseStringBody (cs.length + 1) cs).map (fun p => (String.mk p.1, p.2))

def json.isNumberChar (c : Char) : Bool :=
  json.isDigit c || c = '-' || c = '+' || c = '.' || c = 'e' || c = 'E'

/-- A number literal without its optional minus sign. -/
def json.stripMinus : List Char → List Char
  | [] => []
  | c :: r => if c = '-' then r else c :: r

/-- What follows the optional fraction `. [0-9]+`; `none` for a dot without
digits. -/
def json.skipFraction : List Char → Option (List Char)
  | [] => some []
  | c :: r =>
    if c = '.' then
      if (r.takeWhile json.isDigit).isEmpty then none else some (r.dropWhile json.isDigit)
    else some (c :: r)

/-- What follows the optional exponent `[eE] [+-]? [0-9]+`; `none` for an
exponent without digits. -/
def json.skipExponent : List Char → Option (List Char)
  | [] => some []
  | e :: r =>
    if e = 'e' ∨ e = 'E' then
      let r2 := match r with
        | [] => []
        | c :: t => if c = '+' ∨ c = '-' then t else c :: t
      if (r2.takeWhile json.isDigit).isEmpty then none else some (r2.dropWhile json.isDigit)
    else some (e :: r)

/-- The grammar of a JSON number:
`-? (0 | [1-9][0-9]*) (. [0-9]+)? ([eE] [+-]? [0-9]+)?`. -/
def json.validNumber (lit : List Char) : Bool :=
  let s := json.stripMinus lit
  let ip := s.takeWhile json.isDigit
  let okInt := !ip.isEmpty && (ip.head? != some '0' || ip.length == 1)
  okInt && ((json.skipFraction (s.dropWhile json.isDigit)).bind json.skipExponent == some [])

/-- A number literal: the longest run of number characters, which has to follow
the grammar. -/
def json.parseNumber (cs : List Char) : Option (JSON × List Char) :=
  let lit := cs.takeWhile json.isNumberChar
  if json.validNumber lit then some (.num lit, cs.dropWhile json.isNumberChar) else none

mutual
/-- One JSON value at the head of the input, and the input after it. -/
def json.parseValue : Nat → List Char → Option (JSON × List Char)
  | 0, _ => none
  | fuel + 1, cs =>
    match json.skipSpace cs with
    | [] => none
    | c :: rest =>
      if c = '"' then (json.parseString rest).map (fun p => (.str p.1, p.2))
      else if c = '[' then
        match json.skipSpace rest with
        | [] => none
        | d :: rest1 =>
          if d = ']' then some (.arr [], rest1)
          else (json.parseElements fuel rest).map (fun p => (.arr p.1, p.2))
      else if c = '{' then
        match json.skipSpace rest with
        | [] => none
        | d :: rest1 =>
          if d = '}' then some (.obj [], rest1)
          else (json.parseMembers fuel rest).map (fun p => (.obj p.1, p.2))
      else if c = '-' ∨ json.isDigit c then json.parseNumber (c :: rest)
      else
        match c :: rest with
        | 'n' :: 'u' :: 'l' :: 'l' :: rest1 => some (.null, rest1)
        | 't' :: 'r' :: 'u' :: 'e' :: rest1 => some (.bool true, rest1)
        | 'f' :: 'a' :: 'l' :: 's' :: 'e' :: rest1 => some (.bool false, rest1)
        | _ => none
/-- The elements of a non-empty array and its closing bracket. -/
def json.parseElements : Nat → List Char → Option (List JSON × List Char)
  | 0, _ => none
  | fuel + 1, cs =>
    match json.parseValue fuel cs with
    | none => none
    | some (v, rest) =>
      match json.skipSpace rest with
      | [] => none
      | c :: rest1 =>
        if c = ',' then (json.parseElements fuel rest1).map (fun p => (v :: p.1, p.2))
        else if c = ']' then some ([v], rest1)
        else none
/-- The members of a non-empty object and its closing brace. -/
def json.parseMembers : Nat → List Char → Option (List (String × JSON) × List Char)
  | 0, _ => none
  | fuel + 1, cs =>
    match json.skipSpace cs with
    | [] => none
    | q :: rest =>
      if q = '"' then
        match json.parseString rest with
        | none => none
        | some (k, rest1) =>
          match json.skipSpace rest1 with
          | [] => none
          | c :: rest2 =>
            if c = ':' then
              match json.parseValue fuel rest2 with
              | none => none
              | some (v, rest3) =>
                match json.skipSpace rest3 with
                | [] => none
                | d :: rest4 =>
                  if d = ',' then
                    (json.parseMembers fuel rest4).map (fun p => ((k, v) :: p.1, p.2))
                  else if d = '}' then some ([(k, v)], rest4)
                  else none
            else none
      else none
end

/-- Modelled from the spec: the parser of a whole JSON document (the repository
has no decoder): one value and nothing but white space after it.  The fuel
covers every input: each call uses one unit and at most two calls are made
without consuming a character. -/
def json.parse (data : List Char) : Option JSON :=
  match json.parseValue (2 * data.length + 2) data with
  | none => none
  | some (v, rest) => if json.skipSpace rest = [] then some v else none

/-- The value that `strconv.ParseInt` accumulates over a run of digits. -/
def strconv.digitsValue (ds : List Char) : Nat :=
  ds.foldl (fun acc c => acc * 10 + (c.toNat - 48)) 0

/-- Modelled from the spec: the library function `strconv.ParseInt(s, 10, 64)`,
with which the decoder reads an `int`: an optional sign and a non-empty run of
digits whose value fits in 64 bits. -/
def strconv.ParseInt (s : List Char) : Option Int :=
  match s with
  | [] => none
  | c :: r =>
    let neg : Bool := c = '-'
    let ds := if c = '-' ∨ c = '+' then r else c :: r
    if ds.isEmpty || !ds.all json.isDigit then none
    else
      let un := strconv.digitsValue ds
      if neg then (if un ≤ 2 ^ 63 then some (-(un : Int)) else none)
      else (if un < 2 ^ 63 then some (un : Int) else none)

/-- Case folding of one character of a key against one of a tag, as the
decoder's `equalFold` does it: ASCII letters match in either case, and the
Kelvin sign and the long s match `k` and `s`. -/
def json.foldEqRune (tag key : Char) : Bool :=
  tag = key ||
  (((97 ≤ tag.toNat && tag.toNat ≤ 122) || (65 ≤ tag.toNat && tag.toNat ≤ 90)) &&
    key.toNat < 128 && tag.toNat % 32 = key.toNat % 32 && 64 ≤ key.toNat) ||
  ((tag = 's' || tag = 'S') && key.toNat = 383) ||
  ((tag = 'k' || tag = 'K') && key.toNat = 8490)

def json.equalFold : List Char → List Char → Bool
  | [], [] => true
  | t :: ts, k :: ks => json.foldEqRune t k && json.equalFold ts ks
  | _, _ => false

/-- The `json` tags of `RepositoryInfo` (lines 29-35). -/
def RepositoryInfo.jsonTags : List String :=
  ["name", "description", "stars", "forks", "language", "pushed_at", "url"]

/-- The field a key of an object stands for: the one whose tag is the key,
else the first one whose tag equals the key under case folding. -/
def json.findField (key : String) : Option String :=
  match RepositoryInfo.jsonTags.find? (fun tag => tag = key) with
  | some tag => some tag
  | none => RepositoryInfo.jsonTags.find? (fun tag => json.equalFold tag.toList key.toList)

/-- A JSON value stored into a string field. -/
def json.storeString (old : String) : JSON → Option String
  | .str s => some s
  | .null => some old
  | _ => none

/-- A JSON value stored into an `int` field. -/
def json.storeInt (old : Int) : JSON → Option Int
  | .num lit => strconv.ParseInt lit
  | .null => some old
  | _ => none

/-- A JSON value stored into the field with the given tag. -/
def json.setField (r : RepositoryInfo) (tag : String) (v : JSON) : Option RepositoryInfo :=
  if tag = "name" then (json.storeString r.Name v).map (fun s => { r with Name := s })
  else if tag = "description" then
    (json.storeString r.Description v).map (fun s => { r with Description := s })
  else if tag = "stars" then (json.storeInt r.Stars v).map (fun i => { r with Stars := i })
  else if tag = "forks" then (json.storeInt r.Forks v).map (fun i => { r with Forks := i })
  else if tag = "language" then
    (json.storeString r.Language v).map (fun s => { r with Language := s })
  else if tag = "pushed_at" then
    (json.storeString r.PushedAt v).map (fun s => { r with PushedAt := s })
  else if tag = "url" then (json.storeString r.URL v).map (fun s => { r with URL := s })
  else some r

/-- The members of an object stored one after the other into a struct. -/
def json.decodeMembers : List (String × JSON) → RepositoryInfo → Option RepositoryInfo
  | [], r => some r
  | (key, v) :: rest, r =>
    match json.findField key with
    | none => json.decodeMembers rest r
    | some tag =>
      match json.setField r tag v with
      | none => none
      | some r1 => json.decodeMembers rest r1

/-- A JSON value decoded into a fresh `*RepositoryInfo`. -/
def json.decodePtr : JSON → Option (Ptr RepositoryInfo)
  | .null => some none
  | .obj members =>
    (json.decodeMembers members
      { Name := "", Description := "", Stars := 0, Forks := 0, Language := "",
        PushedAt := "", URL := "" }).map some
  | _ => none

/-- The elements of an array decoded one after the other. -/
def json.decodeElements : List JSON → Option (List (Ptr RepositoryInfo))
  | [] => some []
  | v :: rest =>
    match json.decodePtr v with
    | none => none
    | some p => (json.decodeElements rest).map (fun ps => p :: ps)

/-- A JSON value decoded into a fresh `[]*RepositoryInfo`. -/
def json.decodeSlice : JSON → Option (GoSlice (Ptr RepositoryInfo))
  | .null => some .nil
  | .arr elems => (json.decodeElements elems).map .lit
  | _ => none

/-- Modelled from the spec: `decode` of section 8, which the repository does not
contain, as the library function `json.Unmarshal(data, &out)` for a fresh
`out []*RepositoryInfo`; `none` stands for a returned error. -/
def json.Unmarshal (data : List Char) : Option (GoSlice (Ptr RepositoryInfo)) :=
  (json.parse data).bind json.decodeSlice

/-! ## Notions used in the statements -/

/-- `PagePath client org p visits q`: with the cursor at page `p`, the requests
for the pages of `visits` (page size 100) succeed one after the other, return
the listed items, and leave the cursor at `q`. -/
def PagePath {R : Type} (client : ListByOrg R) (org : String) :
    Int → List (Int × GoSlice R) → Int → Prop
  | p, [], q => p = q
  | p, (page, items) :: rest, q =>
    page = p ∧ p ≠ 0 ∧
      ∃ next, client org ⟨p, 100⟩ = .ok (items, ⟨next⟩) ∧ PagePath client org next rest q

/-- The request for one visited page. -/
def requestOf {R : Type} (v : Int × GoSlice R) : ListOptions := ⟨v.1, 100⟩

/-- An environment given by a list of definitions. -/
def envOf (defs : List (String × String)) : String → Option String :=
  fun name => (defs.find? (fun d => d.1 = name)).map (fun d => d.2)

/-- A provider with 100 repositories on page 1 (next page 2) and 37 on page 2
(no next page); repositories are numbered. -/
def twoPageClient : ListByOrg Nat :=
  fun _ options =>
    if options.Page = 1 then .ok (.lit (List.range 100), ⟨2⟩)
    else if options.Page = 2 then .ok (.lit ((List.range 37).map (fun i => 100 + i)), ⟨0⟩)
    else .error (.other "404 Not Found")

/-- A provider whose second page fails. -/
def failingSecondPageClient : ListByOrg Nat :=
  fun _ options =>
    if options.Page = 1 then .ok (.lit [0, 1, 2], ⟨2⟩)
    else .error (.other "403 API rate limit exceeded")

/-- The precondition of the projector for one element of its input: the
pointer is not nil and the five fields the loop body dereferences (name, star
count, fork count, last push, URL) are present. -/
def complete {T : Type} (repo : Ptr (Repository T)) : Bool :=
  match repo with
  | none => false
  | some r =>
    r.Name.isSome && r.StargazersCount.isSome && r.ForksCount.isSome && r.PushedAt.isSome &&
      r.HTMLURL.isSome

/-- The four fields that section 4.3 of the specification names as always
present: name, star count, fork count, URL. -/
def namedFieldsPresent {T : Type} (repo : Ptr (Repository T)) : Bool :=
  match repo with
  | none => false
  | some r => r.Name.isSome && r.StargazersCount.isSome && r.ForksCount.isSome && r.HTMLURL.isSome

/-- Repository "lib-a": 10 stars, 2 forks, language Go, no description.  The
time stamp is given by its rendering. -/
def libA : Repository String :=
  { Name := some "lib-a", Description := none, StargazersCount := some 10,
    ForksCount := some 2, Language := some "Go",
    PushedAt := some "2017-06-01 12:00:00 +0000 UTC",
    HTMLURL := some "https://github.com/acme/lib-a" }

/-- Repository "lib-b": 3 stars, no forks, no language, description "demo". -/
def libB : Repository String :=
  { Name := some "lib-b", Description := some "demo", StargazersCount := some 3,
    ForksCount := some 0, Language := none,
    PushedAt := some "2017-06-02 08:30:00 +0000 UTC",
    HTMLURL := some "https://github.com/acme/lib-b" }

/-- A repository with everything present but the time of the last push. -/
def neverPushed : Repository String :=
  { Name := some "lib-c", Description := some "empty", StargazersCount := some 0,
    ForksCount := some 0, Language := some "Go", PushedAt := none,
    HTMLURL := some "https://github.com/acme/lib-c" }

/-- A repository without description and language. -/
def bare : Repository String :=
  { Name := some "bare", Description := none, StargazersCount := some 7,
    ForksCount := some 1, Language := none,
    PushedAt := some "2017-06-03 00:00:00 +0000 UTC",
    HTMLURL := some "https://github.com/acme/bare" }

/-- The record with a last-push time added. -/
def Repository.touch (r : Repository String) : Repository String :=
  { r with PushedAt := some "2017-06-04 00:00:00 +0000 UTC" }

/-- The environment of the scenarios: organization "acme". -/
def acmeEnv : String → Option String :=
  envOf [("GITHUB_ACCESS_TOKEN", "t0k3n"), ("GITHUB_ORGANIZATION", "acme"),
    ("S3_BUCKET", "bucket"), ("S3_KEY", "repos.json")]

/-- The provider of the end-to-end scenario: "acme" has the repositories
"lib-a" and "lib-b" on one page. -/
def acmeApi : String → ListByOrg (Ptr (Repository String)) :=
  fun _ _ options =>
    if options.Page = 1 then .ok (.lit [some libA, some libB], ⟨0⟩)
    else .error (.other "404 Not Found")

/-- A provider whose second page fails. -/
def failingSecondPageApi : String → ListByOrg (Ptr (Repository String)) :=
  fun _ _ options =>
    if options.Page = 1 then .ok (.lit [some libA], ⟨2⟩)
    else .error (.other "403 API rate limit exceeded")

/-- A provider that lists one repository without a name. -/
def namelessApi : String → ListByOrg (Ptr (Repository String)) :=
  fun _ _ _ => .ok (.lit [some { libA with Name := none }], ⟨0⟩)

/-- A provider whose first page names itself as the next page. -/
def cyclicApi : String → ListByOrg (Ptr (Repository String)) :=
  fun _ _ _ => .ok (.lit [some libA], ⟨1⟩)

/-- A session creation that succeeds in every environment. -/
def workingSession : NewSession := fun _ => none

/-- A session creation that fails when the environment names a bundle of
certificates (which then cannot be read). -/
def missingBundleSession : NewSession :=
  fun env =>
    match env "AWS_CA_BUNDLE" with
    | some _ => some (.awserr "LoadCustomCABundleError" "unable to open custom CA bundle PEM file")
    | none => none

/-- The environment of the scenarios with a bundle of certificates named. -/
def acmeBundleEnv : String → Option String :=
  envOf [("GITHUB_ACCESS_TOKEN", "t0k3n"), ("GITHUB_ORGANIZATION", "acme"),
    ("S3_BUCKET", "bucket"), ("S3_KEY", "repos.json"),
    ("AWS_CA_BUNDLE", "/nonexistent/ca.pem")]

/-- A storage service that accepts every write. -/
def acceptingS3 : PutObject := fun _ => none

/-- A storage service that refuses every write. -/
def accessDeniedS3 : PutObject := fun _ => some (.awserr "AccessDenied" "Access Denied")

/-- The JSON value that the encoding of a field value denotes. -/
def FieldValue.toJSON : FieldValue → JSON
  | .string s => .str s
  | .int i => .num (strconv.FormatInt i)

/-- The JSON object that the encoding of a summary denotes: the seven tagged
members in declaration order. -/
def RepositoryInfo.toJSON (r : RepositoryInfo) : JSON :=
  .obj [("name", .str r.Name), ("description", .str r.Description),
    ("stars", .num (strconv.FormatInt r.Stars)), ("forks", .num (strconv.FormatInt r.Forks)),
    ("language", .str r.Language), ("pushed_at", .str r.PushedAt), ("url", .str r.URL)]

/-- The JSON value that the encoding of a pointer denotes. -/
def ptrToJSON : Ptr RepositoryInfo → JSON
  | none => .null
  | some r => r.toJSON

/-- The JSON value that the encoding of a slice denotes. -/
def sliceToJSON : GoSlice (Ptr RepositoryInfo) → JSON
  | .nil => .null
  | .lit xs => .arr (xs.map ptrToJSON)

/-- A summary whose two counters are values of a 64 bit Go `int`. -/
def RepositoryInfo.inRange (r : RepositoryInfo) : Prop :=
  (-(2 ^ 63 : Int) ≤ r.Stars ∧ r.Stars < 2 ^ 63) ∧ (-(2 ^ 63 : Int) ≤ r.Forks ∧ r.Forks < 2 ^ 63)

/-- The summary of "lib-a". -/
def infoA : RepositoryInfo :=
  { Name := "lib-a", Description := "", Stars := 10, Forks := 2, Language := "Go",
    PushedAt := "2017-06-01 12:00:00 +0000 UTC", URL := "https://github.com/acme/lib-a" }

/-- The summary of "lib-b". -/
def infoB : RepositoryInfo :=
  { Name := "lib-b", Description := "demo", Stars := 3, Forks := 0, Language := "",
    PushedAt := "2017-06-02 08:30:00 +0000 UTC", URL := "https://github.com/acme/lib-b" }

/-! # Theorems -/

/-! ## Configuration loading -/

/-- C3: when the four variables are defined `loadEnvConfig` returns the
configuration made of exactly their values (an empty value included), and when
one of them alone is undefined it returns the error `<KEY> undefined` for that
key and no configuration. -/
theorem loadEnvConfig_spec (env : String → Option String) :
    (∀ t o b k, env "GITHUB_ACCESS_TOKEN" = some t → env "GITHUB_ORGANIZATION" = some o →
      env "S3_BUCKET" = some b → env "S3_KEY" = some k →
      loadEnvConfig env = .ok ⟨t, o, b, k⟩) ∧
    (env "GITHUB_ACCESS_TOKEN" = none → (env "GITHUB_ORGANIZATION").isSome →
      (env "S3_BUCKET").isSome → (env "S3_KEY").isSome →
      loadEnvConfig env = .error (.errorString "GITHUB_ACCESS_TOKEN undefined")) ∧
    ((env "GITHUB_ACCESS_TOKEN").isSome → env "GITHUB_ORGANIZATION" = none →
      (env "S3_BUCKET").isSome → (env "S3_KEY").isSome →
      loadEnvConfig env = .error (.errorString "GITHUB_ORGANIZATION undefined")) ∧
    ((env "GITHUB_ACCESS_TOKEN").isSome → (env "GITHUB_ORGANIZATION").isSome →
      env "S3_BUCKET" = none → (env "S3_KEY").isSome →
      loadEnvConfig env = .error (.errorString "S3_BUCKET undefined")) ∧
    ((env "GITHUB_ACCESS_TOKEN").isSome → (env "GITHUB_ORGANIZATION").isSome →
      (env "S3_BUCKET").isSome → env "S3_KEY" = none →
      loadEnvConfig env = .error (.errorString "S3_KEY undefined")) := by
  refine ⟨?_, ?_, ?_, ?_, ?_⟩
  · intro t o b k ht ho hb hk
    simp [loadEnvConfig, ht, ho, hb, hk, bind, Except.bind, pure, Except.pure]
  · intro ht _ _ _
    simp [loadEnvConfig, ht, bind, Except.bind, throw, throwThe, MonadExceptOf.throw,
      errors.New]
  · intro ht ho _ _
    obtain ⟨t, ht⟩ := Option.isSome_iff_exists.mp ht
    simp [loadEnvConfig, ht, ho, bind, Except.bind, throw, throwThe, MonadExceptOf.throw,
      errors.New, pure, Except.pure]
  · intro ht ho hb _
    obtain ⟨t, ht⟩ := Option.isSome_iff_exists.mp ht
    obtain ⟨o, ho⟩ := Option.isSome_iff_exists.mp ho
    simp [loadEnvConfig, ht, ho, hb, bind, Except.bind, throw, throwThe, MonadExceptOf.throw,
      errors.New, pure, Except.pure]
  · intro ht ho hb hk
    obtain ⟨t, ht⟩ := Option.isSome_iff_exists.mp ht
    obtain ⟨o, ho⟩ := Option.isSome_iff_exists.mp ho
    obtain ⟨b, hb⟩ := Option.isSome_iff_exists.mp hb
    simp [loadEnvConfig, ht, ho, hb, hk, bind, Except.bind, throw, throwThe,
      MonadExceptOf.throw, errors.New, pure, Except.pure]

/-- C3 at concrete environments: all four defined (the key being the empty
string), and each of the four missing in turn. -/
theorem loadEnvConfig_spec_witness :
    loadEnvConfig (envOf [("GITHUB_ACCESS_TOKEN", "t0k3n"), ("GITHUB_ORGANIZATION", "acme"),
        ("S3_BUCKET", "bucket"), ("S3_KEY", "")]) = .ok ⟨"t0k3n", "acme", "bucket", ""⟩ ∧
    loadEnvConfig (envOf [("GITHUB_ORGANIZATION", "acme"), ("S3_BUCKET", "bucket"),
        ("S3_KEY", "repos.json")]) = .error (.errorString "GITHUB_ACCESS_TOKEN undefined") ∧
    loadEnvConfig (envOf [("GITHUB_ACCESS_TOKEN", "t0k3n"), ("S3_BUCKET", "bucket"),
        ("S3_KEY", "repos.json")]) = .error (.errorString "GITHUB_ORGANIZATION undefined") ∧
    loadEnvConfig (envOf [("GITHUB_ACCESS_TOKEN", "t0k3n"), ("GITHUB_ORGANIZATION", "acme"),
        ("S3_KEY", "repos.json")]) = .error (.errorString "S3_BUCKET undefined") ∧
    loadEnvConfig (envOf [("GITHUB_ACCESS_TOKEN", "t0k3n"), ("GITHUB_ORGANIZATION", "acme"),
        ("S3_BUCKET", "bucket")]) = .error (.errorString "S3_KEY undefined") :=
  ⟨(loadEnvConfig_spec _).1 _ _ _ _ (by decide) (by decide) (by decide) (by decide),
   (loadEnvConfig_spec _).2.1 (by decide) (by decide) (by decide) (by decide),
   (loadEnvConfig_spec _).2.2.1 (by decide) (by decide) (by decide) (by decide),
   (loadEnvConfig_spec _).2.2.2.1 (by decide) (by decide) (by decide) (by decide),
   (loadEnvConfig_spec _).2.2.2.2 (by decide) (by decide) (by decide) (by decide)⟩

/-! ## Listing -/

theorem GoSlice.toList_append {α : Type} (s : GoSlice α) (xs : List α) :
    (s.append xs).toList = s.toList ++ xs := by
  cases xs <;> simp [GoSlice.append, GoSlice.toList]

theorem GoSlice.append_append {α : Type} (s : GoSlice α) (xs ys : List α) :
    (s.append xs).append ys = s.append (xs ++ ys) := by
  cases xs with
  | nil => rfl
  | cons x xs =>
    cases ys with
    | nil => simp [GoSlice.append]
    | cons y ys => simp [GoSlice.append, GoSlice.toList]

/-- Along a path the loop makes exactly the requests of the path and appends
the items of its pages. -/
theorem loop_along_path {R : Type} (client : ListByOrg R) (org : String)
    (visits : List (Int × GoSlice R)) :
    ∀ (p q : Int), PagePath client org p visits q →
      ∀ (fuel : Nat) (allRepos : GoSlice R) (requests : List ListOptions),
        getAllRepositoriesByOrganization.loop client org (fuel + visits.length) ⟨p, 100⟩
            allRepos requests =
          getAllRepositoriesByOrganization.loop client org fuel ⟨q, 100⟩
            (allRepos.append (visits.flatMap (fun v => v.2.toList)))
            (requests ++ visits.map requestOf) := by
  induction visits with
  | nil =>
    intro p q h fuel allRepos requests
    simp only [PagePath] at h
    subst h
    simp [GoSlice.append]
  | cons v rest ih =>
    intro p q h fuel allRepos requests
    obtain ⟨page, items⟩ := v
    obtain ⟨hpage, hp, next, hcall, hrest⟩ := h
    subst hpage
    have hlen : fuel + ((page, items) :: rest).length = (fuel + rest.length) + 1 := by
      simp [Nat.add_assoc]
    rw [hlen, getAllRepositoriesByOrganization.loop]
    simp only [hp, ne_eq, not_false_eq_true, if_true, hcall]
    rw [ih next q hrest fuel]
    simp [GoSlice.append_append, requestOf]

/-- Two paths from the same page to the end of the listing are the same. -/
theorem PagePath.unique {R : Type} (client : ListByOrg R) (org : String) :
    ∀ (v1 v2 : List (Int × GoSlice R)) (p : Int),
      PagePath client org p v1 0 → PagePath client org p v2 0 → v1 = v2 := by
  intro v1
  induction v1 with
  | nil =>
    intro v2 p h1 h2
    simp only [PagePath] at h1
    cases v2 with
    | nil => rfl
    | cons w rest => exact absurd h1 h2.2.1
  | cons w1 rest1 ih =>
    intro v2 p h1 h2
    cases v2 with
    | nil =>
      simp only [PagePath] at h2
      exact absurd h2 h1.2.1
    | cons w2 rest2 =>
      obtain ⟨page1, items1⟩ := w1
      obtain ⟨page2, items2⟩ := w2
      obtain ⟨e1, _, n1, c1, r1⟩ := h1
      obtain ⟨e2, _, n2, c2, r2⟩ := h2
      rw [c1] at c2
      simp only [Except.ok.injEq, Prod.mk.injEq, Response.mk.injEq] at c2
      obtain ⟨hi, hn⟩ := c2
      subst hi hn e1 e2
      rw [ih rest2 n1 r1 r2]

/-- A path can be cut at any visit. -/
theorem PagePath.split {R : Type} (client : ListByOrg R) (org : String) :
    ∀ (a b : List (Int × GoSlice R)) (p q : Int),
      PagePath client org p (a ++ b) q →
        ∃ m, PagePath client org p a m ∧ PagePath client org m b q := by
  intro a
  induction a with
  | nil => intro b p q h; exact ⟨p, rfl, h⟩
  | cons w rest ih =>
    intro b p q h
    obtain ⟨page, items⟩ := w
    obtain ⟨e, hp, n, c, r⟩ := h
    obtain ⟨m, h1, h2⟩ := ih b n q r
    exact ⟨m, ⟨e, hp, n, c, h1⟩, h2⟩

/-- On a path that ends the listing no page is visited twice. -/
theorem PagePath.nodup {R : Type} (client : ListByOrg R) (org : String) :
    ∀ (visits : List (Int × GoSlice R)) (p : Int),
      PagePath client org p visits 0 → (visits.map (fun v => v.1)).Nodup := by
  intro visits
  induction visits with
  | nil => intro p _; simp
  | cons w rest ih =>
    intro p h
    obtain ⟨page, items⟩ := w
    have h0 := h
    obtain ⟨e, hp, n, c, r⟩ := h
    subst e
    simp only [List.map_cons, List.nodup_cons]
    refine ⟨?_, ih n r⟩
    intro hmem
    obtain ⟨w, hw, hw1⟩ := List.mem_map.mp hmem
    obtain ⟨a, b, hab⟩ := List.append_of_mem hw
    rw [hab] at r
    obtain ⟨m, _, hm⟩ := PagePath.split client org a (w :: b) n 0 r
    have hm0 := hm
    obtain ⟨page', items'⟩ := w
    obtain ⟨e', _, _⟩ := hm0
    simp only at hw1
    subst hw1 e'
    have := PagePath.unique client org _ _ _ hm h0
    have hl := congrArg List.length this
    rw [hab] at hl
    simp at hl
    omega

/-- The listing along a path from page 1 to the end. -/
theorem listing_of_path_to_end {R : Type} (client : ListByOrg R) (org : String)
    (visits : List (Int × GoSlice R)) (h : PagePath client org 1 visits 0)
    (fuel : Nat) (hfuel : visits.length < fuel) :
    ∃ allRepos,
      getAllRepositoriesByOrganization fuel client org
        = some ⟨allRepos, none, visits.map requestOf⟩ ∧
      allRepos.toList = visits.flatMap (fun v => v.2.toList) := by
  obtain ⟨k, rfl⟩ : ∃ k, fuel = (k + 1) + visits.length := ⟨fuel - visits.length - 1, by omega⟩
  refine ⟨GoSlice.append .nil (visits.flatMap (fun v => v.2.toList)), ?_, ?_⟩
  · rw [getAllRepositoriesByOrganization, loop_along_path client org visits 1 0 h]
    simp [getAllRepositoriesByOrganization.loop]
  · rw [GoSlice.toList_append]; exact List.nil_append _

/-- The listing along a path from page 1 to a failing page. -/
theorem listing_of_path_to_failure {R : Type} (client : ListByOrg R)
    (org : String) (visits : List (Int × GoSlice R)) (q : Int) (e : GoError)
    (h : PagePath client org 1 visits q) (hq : q ≠ 0)
    (herr : client org ⟨q, 100⟩ = .error e) (fuel : Nat) (hfuel : visits.length < fuel) :
    ∃ allRepos,
      getAllRepositoriesByOrganization fuel client org
        = some ⟨allRepos, some e, visits.map requestOf ++ [⟨q, 100⟩]⟩ ∧
      allRepos.toList = visits.flatMap (fun v => v.2.toList) ∧
      (visits = [] → allRepos = .nil) := by
  obtain ⟨k, rfl⟩ : ∃ k, fuel = (k + 1) + visits.length := ⟨fuel - visits.length - 1, by omega⟩
  refine ⟨GoSlice.append .nil (visits.flatMap (fun v => v.2.toList)), ?_, ?_, ?_⟩
  · rw [getAllRepositoriesByOrganization, loop_along_path client org visits 1 q h]
    simp [getAllRepositoriesByOrganization.loop, hq, herr]
  · rw [GoSlice.toList_append]; exact List.nil_append _
  · rintro rfl; rfl

/-- C1: when the chain of pages from page 1 ends (reaches next page 0) after
the successful requests `visits`, the listing returns no error and the items
of the visited pages concatenated in visit order, and has requested exactly
the visited pages, each one once, with page size 100. -/
theorem getAllRepositoriesByOrganization_pagination {R : Type} (client : ListByOrg R)
    (org : String) (visits : List (Int × GoSlice R)) (h : PagePath client org 1 visits 0)
    (fuel : Nat) (hfuel : visits.length < fuel) :
    ∃ allRepos,
      getAllRepositoriesByOrganization fuel client org
        = some ⟨allRepos, none, visits.map requestOf⟩ ∧
      allRepos.toList = visits.flatMap (fun v => v.2.toList) ∧
      (visits.map (fun v => v.1)).Nodup := by
  obtain ⟨k, rfl⟩ : ∃ k, fuel = (k + 1) + visits.length := ⟨fuel - visits.length - 1, by omega⟩
  refine ⟨GoSlice.append .nil (visits.flatMap (fun v => v.2.toList)), ?_, ?_,
    PagePath.nodup client org visits 1 h⟩
  · rw [getAllRepositoriesByOrganization, loop_along_path client org visits 1 0 h]
    simp [getAllRepositoriesByOrganization.loop]
  · rw [GoSlice.toList_append]; exact List.nil_append _

/-- C1 at the provider with 100 repositories on page 1 and 37 on page 2: the
listing has the 137 repositories in page order, after two requests. -/
theorem getAllRepositoriesByOrganization_pagination_witness :
    ∃ allRepos,
      getAllRepositoriesByOrganization 3 twoPageClient "acme"
        = some ⟨allRepos, none, [⟨1, 100⟩, ⟨2, 100⟩]⟩ ∧
      allRepos.toList = List.range 137 ∧ allRepos.len = 137 := by
  have hpath : PagePath twoPageClient "acme" 1
      [(1, .lit (List.range 100)), (2, .lit ((List.range 37).map (fun i => 100 + i)))] 0 :=
    ⟨rfl, by decide, 2, rfl, rfl, by decide, 0, rfl, rfl⟩
  obtain ⟨allRepos, h1, h2, _⟩ :=
    getAllRepositoriesByOrganization_pagination twoPageClient "acme" _ hpath 3 (by decide)
  refine ⟨allRepos, h1, ?_, ?_⟩
  · rw [h2]; rfl
  · rw [GoSlice.len, h2]; rfl

/-- C10: when the requests `visits` from page 1 succeed and the next request,
for page `q`, fails with `e`, the listing makes that request last and returns
`e` together with the items of the pages fetched before it, in page order;
the accumulator is the nil slice when the first request fails. -/
theorem getAllRepositoriesByOrganization_failure {R : Type} (client : ListByOrg R)
    (org : String) (visits : List (Int × GoSlice R)) (q : Int) (e : GoError)
    (h : PagePath client org 1 visits q) (hq : q ≠ 0)
    (herr : client org ⟨q, 100⟩ = .error e) (fuel : Nat) (hfuel : visits.length < fuel) :
    ∃ allRepos,
      getAllRepositoriesByOrganization fuel client org
        = some ⟨allRepos, some e, visits.map requestOf ++ [⟨q, 100⟩]⟩ ∧
      allRepos.toList = visits.flatMap (fun v => v.2.toList) ∧
      (visits = [] → allRepos = .nil) := by
  obtain ⟨k, rfl⟩ : ∃ k, fuel = (k + 1) + visits.length := ⟨fuel - visits.length - 1, by omega⟩
  refine ⟨GoSlice.append .nil (visits.flatMap (fun v => v.2.toList)), ?_, ?_, ?_⟩
  · rw [getAllRepositoriesByOrganization, loop_along_path client org visits 1 q h]
    simp [getAllRepositoriesByOrganization.loop, hq, herr]
  · rw [GoSlice.toList_append]; exact List.nil_append _
  · rintro rfl; rfl

/-- C10 at a provider whose second page fails: the error comes back with the
three items of page 1, and page 2 is the last request. -/
theorem getAllRepositoriesByOrganization_failure_witness :
    ∃ allRepos,
      getAllRepositoriesByOrganization 2 failingSecondPageClient "acme"
        = some ⟨allRepos, some (.other "403 API rate limit exceeded"),
            [⟨1, 100⟩, ⟨2, 100⟩]⟩ ∧
      allRepos.toList = [0, 1, 2] := by
  have hpath : PagePath failingSecondPageClient "acme" 1 [(1, .lit [0, 1, 2])] 2 :=
    ⟨rfl, by decide, 2, rfl, rfl⟩
  obtain ⟨allRepos, h1, h2, _⟩ :=
    getAllRepositoriesByOrganization_failure failingSecondPageClient "acme" _ 2
      (.other "403 API rate limit exceeded") hpath (by decide) rfl 2 (by decide)
  exact ⟨allRepos, h1, h2⟩


/-! ## Projection -/

theorem GoSlice.toList_nil {α : Type} : (GoSlice.nil : GoSlice α).toList = [] := rfl

/-- On a complete record the loop body returns the summary whose fields are
the dereferenced values, with the empty string for an absent description or
language. -/
theorem body_of_complete {T : Type} (tsString : T → String) (repo : Ptr (Repository T))
    (h : complete repo = true) :
    ∃ r n s f p u, repo = some r ∧ r.Name = some n ∧ r.StargazersCount = some s ∧
      r.ForksCount = some f ∧ r.PushedAt = some p ∧ r.HTMLURL = some u ∧
      makeRepositoryInfoList.body tsString repo
        = .ok ⟨n, r.Description.getD "", s, f, r.Language.getD "", tsString p, u⟩ := by
  cases repo with
  | none => simp [complete] at h
  | some r =>
    obtain ⟨n', d, s', f', l, p', u'⟩ := r
    simp only [complete, Bool.and_eq_true, Option.isSome_iff_exists] at h
    obtain ⟨⟨⟨⟨⟨n, rfl⟩, ⟨s, rfl⟩⟩, ⟨f, rfl⟩⟩, ⟨p, rfl⟩⟩, ⟨u, rfl⟩⟩ := h
    refine ⟨_, n, s, f, p, u, rfl, rfl, rfl, rfl, rfl, rfl, ?_⟩
    cases d <;> cases l <;> rfl

/-- On complete elements the loop appends one summary per element, in order. -/
theorem loop_of_complete {T : Type} (tsString : T → String) :
    ∀ (xs : List (Ptr (Repository T))) (acc : GoSlice (Ptr RepositoryInfo)),
      (∀ p ∈ xs, complete p = true) →
      ∃ infos : List RepositoryInfo,
        List.Forall₂ (fun p info => makeRepositoryInfoList.body tsString p = .ok info)
          xs infos ∧
        makeRepositoryInfoList.loop tsString xs acc = .ok (acc.append (infos.map some)) := by
  intro xs
  induction xs with
  | nil => intro acc _; exact ⟨[], List.Forall₂.nil, rfl⟩
  | cons x rest ih =>
    intro acc h
    obtain ⟨r, n, s, f, p, u, -, -, -, -, -, -, hb⟩ :=
      body_of_complete tsString x (h x (List.mem_cons_self _ _))
    obtain ⟨infos, hall, hloop⟩ :=
      ih (acc.append [some ⟨n, r.Description.getD "", s, f, r.Language.getD "", tsString p, u⟩])
        (fun p hp => h p (List.mem_cons_of_mem _ hp))
    refine ⟨_ :: infos, List.Forall₂.cons hb hall, ?_⟩
    rw [makeRepositoryInfoList.loop, hb]
    simp only [hloop, GoSlice.append_append, List.map_cons, List.singleton_append]

/-- The projection of a complete input, element by element. -/
theorem makeRepositoryInfoList_of_complete {T : Type} (tsString : T → String)
    (repos : GoSlice (Ptr (Repository T))) (h : ∀ p ∈ repos.toList, complete p = true) :
    ∃ infos : List RepositoryInfo,
      List.Forall₂ (fun p info => makeRepositoryInfoList.body tsString p = .ok info)
        repos.toList infos ∧
      makeRepositoryInfoList tsString repos = .ok (GoSlice.append .nil (infos.map some)) :=
  loop_of_complete tsString repos.toList .nil h

/-- The projection of a complete input, index by index: the i-th summary is
built from the fields of the i-th record. -/
theorem makeRepositoryInfoList_get {T : Type} (tsString : T → String)
    (repos : GoSlice (Ptr (Repository T))) (h : ∀ p ∈ repos.toList, complete p = true) :
    ∃ repoInfos, makeRepositoryInfoList tsString repos = .ok repoInfos ∧
      repoInfos.len = repos.len ∧
      ∀ (i : Nat) (r : Repository T), repos.toList[i]? = some (some r) →
        ∃ n s f p u, r.Name = some n ∧ r.StargazersCount = some s ∧ r.ForksCount = some f ∧
          r.PushedAt = some p ∧ r.HTMLURL = some u ∧
          repoInfos.toList[i]?
            = some (some ⟨n, r.Description.getD "", s, f, r.Language.getD "", tsString p, u⟩) := by
  obtain ⟨infos, hall, hres⟩ := makeRepositoryInfoList_of_complete tsString repos h
  refine ⟨_, hres, ?_, ?_⟩
  · rw [GoSlice.len, GoSlice.len, GoSlice.toList_append, hall.length_eq]
    simp [GoSlice.toList_nil]
  · intro i r hir
    obtain ⟨hi1, hget⟩ := List.getElem?_eq_some.mp hir
    have hi2 : i < infos.length := hall.length_eq ▸ hi1
    have hb := (List.forall₂_iff_get.mp hall).2 i hi1 hi2
    rw [List.get_eq_getElem, hget] at hb
    obtain ⟨r', n, s, f, p, u, hr, hn, hs, hf, hp, hu, hb2⟩ :=
      body_of_complete tsString (some r) (h _ (hget ▸ List.getElem_mem hi1))
    cases hr
    rw [hb2] at hb
    refine ⟨n, s, f, p, u, hn, hs, hf, hp, hu, ?_⟩
    rw [GoSlice.toList_append, Except.ok.inj hb]
    simp [GoSlice.toList_nil, List.getElem?_map, List.getElem?_eq_getElem hi2]

/-- C5: on an input whose records have the required fields present the
projection has the length of the input and the i-th summary carries the name
of the i-th record. -/
theorem makeRepositoryInfoList_order_and_length {T : Type} (tsString : T → String)
    (repos : GoSlice (Ptr (Repository T))) (h : ∀ p ∈ repos.toList, complete p = true) :
    ∃ repoInfos, makeRepositoryInfoList tsString repos = .ok repoInfos ∧
      repoInfos.len = repos.len ∧
      ∀ i, i < repos.len →
        ∃ r info, repos.toList[i]? = some (some r) ∧
          repoInfos.toList[i]? = some (some info) ∧ r.Name = some info.Name := by
  obtain ⟨repoInfos, hres, hlen, hget⟩ := makeRepositoryInfoList_get tsString repos h
  refine ⟨repoInfos, hres, hlen, ?_⟩
  intro i hi
  have hi1 : i < repos.toList.length := hi
  obtain ⟨r, -, -, -, -, -, hr, -⟩ :=
    body_of_complete tsString _ (h _ (List.getElem_mem hi1))
  have hir : repos.toList[i]? = some (some r) := by
    rw [List.getElem?_eq_getElem hi1, hr]
  obtain ⟨n, s, f, p, u, hn, -, -, -, -, hinfo⟩ := hget i r hir
  exact ⟨r, _, hir, hinfo, hn⟩

/-- C5 at the two repositories "lib-a", "lib-b". -/
theorem makeRepositoryInfoList_order_and_length_witness :
    ∃ repoInfos, makeRepositoryInfoList (fun t : String => t) (.lit [some libA, some libB])
        = .ok repoInfos ∧
      repoInfos.len = 2 ∧
      ∀ i, i < 2 →
        ∃ r info, [some libA, some libB][i]? = some (some r) ∧
          repoInfos.toList[i]? = some (some info) ∧ r.Name = some info.Name :=
  makeRepositoryInfoList_order_and_length (fun t : String => t) (.lit [some libA, some libB])
    (by decide)

/-- C6: on an input whose records have the required fields present, the
summary of a record has the record's name, star count, fork count and URL, the
rendering of its last-push time, and for description and language the
record's value when present and the empty string when absent. -/
theorem makeRepositoryInfoList_fields {T : Type} (tsString : T → String)
    (repos : GoSlice (Ptr (Repository T))) (h : ∀ p ∈ repos.toList, complete p = true) :
    ∃ repoInfos, makeRepositoryInfoList tsString repos = .ok repoInfos ∧
      ∀ (i : Nat) (r : Repository T), repos.toList[i]? = some (some r) →
        ∃ info, repoInfos.toList[i]? = some (some info) ∧
          r.Name = some info.Name ∧ r.StargazersCount = some info.Stars ∧
          r.ForksCount = some info.Forks ∧ r.HTMLURL = some info.URL ∧
          r.PushedAt.map tsString = some info.PushedAt ∧
          (r.Description = none → info.Description = "") ∧
          (r.Language = none → info.Language = "") ∧
          (∀ d, r.Description = some d → info.Description = d) ∧
          (∀ l, r.Language = some l → info.Language = l) := by
  obtain ⟨repoInfos, hres, -, hget⟩ := makeRepositoryInfoList_get tsString repos h
  refine ⟨repoInfos, hres, ?_⟩
  intro i r hir
  obtain ⟨n, s, f, p, u, hn, hs, hf, hp, hu, hinfo⟩ := hget i r hir
  refine ⟨_, hinfo, hn, hs, hf, hu, by simp [hp], ?_, ?_, ?_, ?_⟩
  · intro hd; simp [hd]
  · intro hl; simp [hl]
  · intro d hd; simp [hd]
  · intro l hl; simp [hl]

/-- C6 at a repository without description and language, listed after "lib-a". -/
theorem makeRepositoryInfoList_fields_witness :
    ∃ repoInfos, makeRepositoryInfoList (fun t : String => t) (.lit [some libA, some bare])
        = .ok repoInfos ∧
      ∃ info, repoInfos.toList[1]? = some (some info) ∧
        info.Description = "" ∧ info.Language = "" ∧ info.Name = "bare" ∧ info.Stars = 7 ∧
        info.Forks = 1 ∧ info.URL = "https://github.com/acme/bare" ∧
        info.PushedAt = "2017-06-03 00:00:00 +0000 UTC" := by
  obtain ⟨repoInfos, hres, hget⟩ :=
    makeRepositoryInfoList_fields (fun t : String => t) (.lit [some libA, some bare])
      (by decide)
  obtain ⟨info, hinfo, hn, hs, hf, hu, hp, hd, hl, -, -⟩ := hget 1 bare rfl
  refine ⟨repoInfos, hres, info, hinfo, hd rfl, hl rfl, ?_, ?_, ?_, ?_, ?_⟩
  · exact (Option.some.inj hn).symm
  · exact (Option.some.inj hs).symm
  · exact (Option.some.inj hf).symm
  · exact (Option.some.inj hu).symm
  · exact (Option.some.inj hp).symm

/-- C9, as stated, fails: a record with name, star count, fork count and URL
present but no last-push time makes the projection dereference nil. -/
theorem makeRepositoryInfoList_total_counterexample :
    (∀ p ∈ [some neverPushed], namedFieldsPresent p = true) ∧
    makeRepositoryInfoList (fun t : String => t) (.lit [some neverPushed])
      = .error .nilDereference :=
  ⟨by decide, rfl⟩

/-- C9, amended: when every record has name, star count, fork count, URL and
last-push time present, whatever the presence of its description and language,
the projection returns a summary sequence. -/
theorem makeRepositoryInfoList_total {T : Type} (tsString : T → String)
    (repos : GoSlice (Ptr (Repository T))) (h : ∀ p ∈ repos.toList, complete p = true) :
    ∃ repoInfos, makeRepositoryInfoList tsString repos = .ok repoInfos := by
  obtain ⟨infos, -, hres⟩ := makeRepositoryInfoList_of_complete tsString repos h
  exact ⟨_, hres⟩

/-- C9, amended, at records with the description, the language, both and
neither absent. -/
theorem makeRepositoryInfoList_total_witness :
    ∃ repoInfos, makeRepositoryInfoList (fun t : String => t)
        (.lit [some libA, some libB, some bare, some neverPushed.touch]) = .ok repoInfos :=
  makeRepositoryInfoList_total (fun t : String => t) _ (by decide)

/-- C4, as stated, fails: for an empty input the projection returns the nil
slice, not an empty one, and the uploaded body is `null`, not `[]`. -/
theorem makeRepositoryInfoList_empty_counterexample :
    makeRepositoryInfoList (fun t : String => t) (.lit []) = .ok .nil ∧
    makeRepositoryInfoList (fun t : String => t) (.lit []) ≠ .ok (.lit []) ∧
    (writeToS3 (fun _ => none) "bucket" "repos.json" .nil).2.map (fun input => input.Body)
      = [['n', 'u', 'l', 'l']] ∧
    (writeToS3 (fun _ => none) "bucket" "repos.json" .nil).2.map (fun input => input.Body)
      ≠ [['[', ']']] :=
  ⟨rfl, fun h => GoSlice.noConfusion (Except.ok.inj h), rfl, by decide⟩

/-- C4, amended: for an input without elements (nil or empty) the projection
returns the nil slice, and the body serialized and uploaded for it is the
JSON literal `null`. -/
theorem makeRepositoryInfoList_empty {T : Type} (tsString : T → String)
    (repos : GoSlice (Ptr (Repository T))) (h : repos.len = 0) :
    makeRepositoryInfoList tsString repos = .ok .nil ∧
    json.Marshal .nil = .ok ['n', 'u', 'l', 'l'] ∧
    ∀ (client : PutObject) (bucket key : String),
      writeToS3 client bucket key .nil
        = (client ⟨"public-read", bucket, key, ['n', 'u', 'l', 'l']⟩,
           [⟨"public-read", bucket, key, ['n', 'u', 'l', 'l']⟩]) := by
  have hnil : repos.toList = [] := List.length_eq_zero.mp h
  refine ⟨?_, rfl, fun _ _ _ => rfl⟩
  rw [makeRepositoryInfoList, hnil]
  rfl

/-- C4, amended, at the empty slice. -/
theorem makeRepositoryInfoList_empty_witness :
    makeRepositoryInfoList (fun t : String => t) (.lit []) = .ok .nil ∧
    writeToS3 (fun _ => none) "bucket" "repos.json" .nil
      = (none, [⟨"public-read", "bucket", "repos.json", ['n', 'u', 'l', 'l']⟩]) :=
  ⟨(makeRepositoryInfoList_empty (fun t : String => t) (.lit []) rfl).1,
   (makeRepositoryInfoList_empty (fun t : String => t) (.lit ([] : List (Ptr (Repository String))))
      rfl).2.2 (fun _ => none) "bucket" "repos.json"⟩


/-! ## The orchestrator -/

/-- Whatever the loop returns, it got there along a path: to page 0 when it
reports no error, to a failing page when it reports one. -/
theorem loop_result {R : Type} (client : ListByOrg R) (org : String) :
    ∀ (fuel : Nat) (p : Int) (allRepos : GoSlice R) (requests : List ListOptions)
      (l : Listing R),
      getAllRepositoriesByOrganization.loop client org fuel ⟨p, 100⟩ allRepos requests
        = some l →
      ∃ visits q, PagePath client org p visits q ∧
        l.allRepos = allRepos.append (visits.flatMap (fun v => v.2.toList)) ∧
        ((l.err = none ∧ q = 0 ∧ l.requests = requests ++ visits.map requestOf) ∨
         (∃ e, l.err = some e ∧ q ≠ 0 ∧ client org ⟨q, 100⟩ = .error e ∧
            l.requests = requests ++ visits.map requestOf ++ [⟨q, 100⟩])) := by
  intro fuel
  induction fuel with
  | zero => intro p allRepos requests l h; simp [getAllRepositoriesByOrganization.loop] at h
  | succ fuel ih =>
    intro p allRepos requests l h
    rw [getAllRepositoriesByOrganization.loop] at h
    by_cases hp : p = 0
    · simp only [hp, ne_eq, not_true_eq_false, if_false, Option.some.injEq] at h
      subst h
      exact ⟨[], p, rfl, rfl, Or.inl ⟨rfl, hp, by simp⟩⟩
    · simp only [hp, ne_eq, not_false_eq_true, if_true] at h
      cases hcall : client org ⟨p, 100⟩ with
      | error e =>
        rw [hcall] at h
        simp only [Option.some.injEq] at h
        subst h
        exact ⟨[], p, rfl, rfl, Or.inr ⟨e, rfl, hp, hcall, by simp⟩⟩
      | ok res =>
        obtain ⟨repos, resp⟩ := res
        rw [hcall] at h
        obtain ⟨visits, q, hpath, hall, hreq⟩ := ih resp.NextPage _ _ l h
        refine ⟨(p, repos) :: visits, q, ⟨rfl, hp, resp.NextPage, hcall, hpath⟩, ?_, ?_⟩
        · rw [hall, GoSlice.append_append]; rfl
        · rcases hreq with ⟨h1, h2, h3⟩ | ⟨e, h1, h2, h3, h4⟩
          · exact Or.inl ⟨h1, h2, by rw [h3]; simp [requestOf]⟩
          · exact Or.inr ⟨e, h1, h2, h3, by rw [h4]; simp [requestOf]⟩


/-- The requests of a listing that ends within the fuel are the requests made
within the fuel. -/
theorem loop_requests {R : Type} (client : ListByOrg R) (org : String) :
    ∀ (fuel : Nat) (options : ListOptions) (allRepos : GoSlice R)
      (requests : List ListOptions) (l : Listing R),
      getAllRepositoriesByOrganization.loop client org fuel options allRepos requests
        = some l →
      l.requests = requests ++
        getAllRepositoriesByOrganization.requestsWithin client org fuel options := by
  intro fuel
  induction fuel with
  | zero => intro options allRepos requests l h; simp [getAllRepositoriesByOrganization.loop] at h
  | succ fuel ih =>
    intro options allRepos requests l h
    rw [getAllRepositoriesByOrganization.loop] at h
    rw [getAllRepositoriesByOrganization.requestsWithin]
    by_cases hp : options.Page = 0
    · simp only [hp, ne_eq, not_true_eq_false, if_false, Option.some.injEq] at h ⊢
      subst h
      simp
    · simp only [hp, ne_eq, not_false_eq_true, if_true] at h ⊢
      cases hcall : client org options with
      | error e =>
        rw [hcall] at h
        simp only [Option.some.injEq] at h
        subst h
        rfl
      | ok res =>
        obtain ⟨repos, resp⟩ := res
        rw [hcall] at h
        rw [ih _ _ _ l h]
        simp

/-- C2, as stated, fails on three kinds of stubs: a provider that lists a
repository without a name makes the invocation panic (it returns neither an
error nor `(nil, nil)`); so does an environment in which the storage session
cannot be created; and a provider whose page chain never ends keeps the
invocation in the listing loop for ever. -/
theorem Handle_no_partial_publish_counterexample :
    Handle 2 acmeEnv workingSession namelessApi (fun t : String => t) acceptingS3
      = ⟨.panicked .nilDereference, [⟨1, 100⟩], []⟩ ∧
    (∀ fuel, Handle fuel acmeBundleEnv missingBundleSession acmeApi (fun t : String => t)
        acceptingS3
      = ⟨.panicked (.value (.awserr "LoadCustomCABundleError"
          "unable to open custom CA bundle PEM file")), [], []⟩) ∧
    ∀ fuel, (Handle fuel acmeEnv workingSession cyclicApi (fun t : String => t)
        acceptingS3).outcome = .running := by
  refine ⟨rfl, fun _ => rfl, ?_⟩
  have hloop : ∀ (fuel : Nat) (allRepos : GoSlice (Ptr (Repository String)))
      (requests : List ListOptions),
      getAllRepositoriesByOrganization.loop (cyclicApi "t0k3n") "acme" fuel ⟨1, 100⟩
        allRepos requests = none := by
    intro fuel
    induction fuel with
    | zero => intro _ _; rfl
    | succ fuel ih =>
      intro allRepos requests
      rw [getAllRepositoriesByOrganization.loop]
      simp only [cyclicApi, ne_eq, one_ne_zero, not_false_eq_true, if_true]
      exact ih _ _
  intro fuel
  have hload : loadEnvConfig acmeEnv = .ok ⟨"t0k3n", "acme", "bucket", "repos.json"⟩ := rfl
  have hs3 : newS3Client acmeEnv workingSession acceptingS3 = .ok acceptingS3 := rfl
  simp only [Handle, hload, hs3, newGitHubClient, getAllRepositoriesByOrganization, hloop]

/-- The input of the one `PutObject` call of `writeToS3`. -/
theorem writeToS3_eq (client : PutObject) (bucket key : String)
    (info : GoSlice (Ptr RepositoryInfo)) :
    writeToS3 client bucket key info
      = (client ⟨"public-read", bucket, key, json.encodeSlice info⟩,
         [⟨"public-read", bucket, key, json.encodeSlice info⟩]) := rfl

theorem newS3Client_of_session (env : String → Option String) (newSession : NewSession)
    (service : PutObject) (h : newSession env = none) :
    newS3Client env newSession service = .ok service := by
  simp only [newS3Client, h]

/-- `Handle` when the configuration is loaded, the session is created, the
listing succeeds and the projection returns. -/
theorem Handle_of_listing {T : Type} (fuel : Nat) (env : String → Option String)
    (newSession : NewSession) (api : String → ListByOrg (Ptr (Repository T)))
    (tsString : T → String) (s3Client : PutObject) (config : EnvConfig)
    (repos : GoSlice (Ptr (Repository T)))
    (requests : List ListOptions) (repoInfos : GoSlice (Ptr RepositoryInfo))
    (hload : loadEnvConfig env = .ok config) (hsession : newSession env = none)
    (hlist : getAllRepositoriesByOrganization fuel (api config.GitHubAccessToken)
      config.GitHubOrganization = some ⟨repos, none, requests⟩)
    (hmake : makeRepositoryInfoList tsString repos = .ok repoInfos) :
    Handle fuel env newSession api tsString s3Client
      = ⟨.returned none
          (s3Client ⟨"public-read", config.S3Bucket, config.S3Key, json.encodeSlice repoInfos⟩),
          requests,
          [⟨"public-read", config.S3Bucket, config.S3Key, json.encodeSlice repoInfos⟩]⟩ := by
  simp only [Handle, hload, newS3Client_of_session env newSession s3Client hsession,
    newGitHubClient, hlist, hmake, writeToS3_eq]
  cases s3Client ⟨"public-read", config.S3Bucket, config.S3Key, json.encodeSlice repoInfos⟩ <;>
    rfl

/-- C2, amended.  For all stubs and at every point of every invocation,
whether it ends or not: at most one storage write has been attempted, one has
been attempted only after the configuration was loaded, the session created
and every page of the listing fetched, a returned error is the first failure
met (of configuration loading, of a page request, or of the upload),
unchanged, and `(nil, nil)` is returned only after the one write succeeded.  A
configuration failure and a failing page are returned with no write; a failed
session creation ends the invocation in a panic before any request or write.
When the session is created, the page chain ends and every listed record has
the fields the projector dereferences, there is exactly one write and the
result is the upload's error, or `(nil, nil)` when the upload succeeds. -/
theorem Handle_no_partial_publish {T : Type} (fuel : Nat) (env : String → Option String)
    (newSession : NewSession) (api : String → ListByOrg (Ptr (Repository T)))
    (tsString : T → String) (s3Client : PutObject) :
    (∀ inv, Handle fuel env newSession api tsString s3Client = inv →
      inv.puts.length ≤ 1 ∧
      (inv.puts ≠ [] → ∃ config visits, loadEnvConfig env = .ok config ∧
        newSession env = none ∧
        PagePath (api config.GitHubAccessToken) config.GitHubOrganization 1 visits 0) ∧
      (∀ result e, inv.outcome = .returned result (some e) →
        result = none ∧
        ((loadEnvConfig env = .error e ∧ inv.puts = []) ∨
         (∃ config visits q, loadEnvConfig env = .ok config ∧
            PagePath (api config.GitHubAccessToken) config.GitHubOrganization 1 visits q ∧
            q ≠ 0 ∧
            api config.GitHubAccessToken config.GitHubOrganization ⟨q, 100⟩ = .error e ∧
            inv.puts = []) ∨
         (∃ input, inv.puts = [input] ∧ s3Client input = some e))) ∧
      (∀ result, inv.outcome = .returned result none →
        result = none ∧ ∃ input, inv.puts = [input] ∧ s3Client input = none)) ∧
    (∀ e, loadEnvConfig env = .error e →
      Handle fuel env newSession api tsString s3Client = ⟨.returned none (some e), [], []⟩) ∧
    (∀ config e, loadEnvConfig env = .ok config → newSession env = some e →
      Handle fuel env newSession api tsString s3Client = ⟨.panicked (.value e), [], []⟩) ∧
    (∀ config visits q e, loadEnvConfig env = .ok config → newSession env = none →
      PagePath (api config.GitHubAccessToken) config.GitHubOrganization 1 visits q →
      q ≠ 0 →
      api config.GitHubAccessToken config.GitHubOrganization ⟨q, 100⟩ = .error e →
      visits.length < fuel →
      Handle fuel env newSession api tsString s3Client
        = ⟨.returned none (some e), visits.map requestOf ++ [⟨q, 100⟩], []⟩) ∧
    (∀ config visits, loadEnvConfig env = .ok config → newSession env = none →
      PagePath (api config.GitHubAccessToken) config.GitHubOrganization 1 visits 0 →
      (∀ v ∈ visits, ∀ p ∈ v.2.toList, complete p = true) →
      visits.length < fuel →
      ∃ repos repoInfos,
        repos.toList = visits.flatMap (fun v => v.2.toList) ∧
        makeRepositoryInfoList tsString repos = .ok repoInfos ∧
        Handle fuel env newSession api tsString s3Client
          = ⟨.returned none
              (s3Client
                ⟨"public-read", config.S3Bucket, config.S3Key, json.encodeSlice repoInfos⟩),
              visits.map requestOf,
              [⟨"public-read", config.S3Bucket, config.S3Key,
                json.encodeSlice repoInfos⟩]⟩) := by
  refine ⟨?_, ?_, ?_, ?_, ?_⟩
  · intro inv hinv
    cases hload : loadEnvConfig env with
    | error e0 =>
      simp only [Handle, hload] at hinv
      subst hinv
      refine ⟨by simp, fun h => absurd rfl h, ?_, ?_⟩
      · intro result e he
        simp only [Outcome.returned.injEq, Option.some.injEq] at he
        obtain ⟨h1, h2⟩ := he
        subst h1 h2
        exact ⟨rfl, Or.inl ⟨rfl, rfl⟩⟩
      · intro result he
        simp at he
    | ok config =>
      cases hsession : newSession env with
      | some e1 =>
        simp only [Handle, hload, newS3Client, hsession] at hinv
        subst hinv
        refine ⟨by simp, fun h => absurd rfl h, ?_, ?_⟩
        · intro result e he
          simp at he
        · intro result he
          simp at he
      | none =>
        have hs3 := newS3Client_of_session env newSession s3Client hsession
        cases hlist : getAllRepositoriesByOrganization fuel (api config.GitHubAccessToken)
            config.GitHubOrganization with
        | none =>
          simp only [Handle, hload, hs3, newGitHubClient, hlist] at hinv
          subst hinv
          refine ⟨by simp, fun h => absurd rfl h, ?_, ?_⟩
          · intro result e he
            simp at he
          · intro result he
            simp at he
        | some l =>
          obtain ⟨visits, q, hpath, -, hcase⟩ := loop_result _ _ _ _ _ _ l hlist
          obtain ⟨repos, err, requests⟩ := l
          rcases hcase with ⟨h1, h2, -⟩ | ⟨e1, h1, h2, h3, -⟩
          · simp only at h1
            subst h1 h2
            cases hmake : makeRepositoryInfoList tsString repos with
            | error p =>
              simp only [Handle, hload, hs3, newGitHubClient, hlist, hmake] at hinv
              subst hinv
              refine ⟨by simp, fun h => absurd rfl h, ?_, ?_⟩
              · intro result e he
                simp at he
              · intro result he
                simp at he
            | ok repoInfos =>
              rw [Handle_of_listing fuel env newSession api tsString s3Client config repos
                requests repoInfos hload hsession hlist hmake] at hinv
              subst hinv
              refine ⟨by simp, fun _ => ⟨config, visits, rfl, rfl, hpath⟩, ?_, ?_⟩
              · intro result e he
                simp only [Outcome.returned.injEq] at he
                exact ⟨he.1.symm, Or.inr (Or.inr ⟨_, rfl, he.2⟩)⟩
              · intro result he
                simp only [Outcome.returned.injEq] at he
                exact ⟨he.1.symm, _, rfl, he.2⟩
          · simp only at h1
            subst h1
            simp only [Handle, hload, hs3, newGitHubClient, hlist] at hinv
            subst hinv
            refine ⟨by simp, fun h => absurd rfl h, ?_, ?_⟩
            · intro result e he
              simp only [Outcome.returned.injEq, Option.some.injEq] at he
              obtain ⟨hr, he⟩ := he
              subst hr he
              exact ⟨rfl, Or.inr (Or.inl ⟨config, visits, q, rfl, hpath, h2, h3, rfl⟩)⟩
            · intro result he
              simp at he
  · intro e hload
    simp only [Handle, hload]
  · intro config e hload hsession
    simp only [Handle, hload, newS3Client, hsession]
  · intro config visits q e hload hsession hpath hq herr hfuel
    obtain ⟨allRepos, hlist, -, -⟩ :=
      listing_of_path_to_failure (api config.GitHubAccessToken)
        config.GitHubOrganization visits q e hpath hq herr fuel hfuel
    simp only [Handle, hload, newS3Client_of_session env newSession s3Client hsession,
      newGitHubClient, hlist]
  · intro config visits hload hsession hpath hcomplete hfuel
    obtain ⟨repos, hlist, hrepos⟩ :=
      listing_of_path_to_end (api config.GitHubAccessToken)
        config.GitHubOrganization visits hpath fuel hfuel
    have hall : ∀ p ∈ repos.toList, complete p = true := by
      intro p hp
      rw [hrepos] at hp
      obtain ⟨v, hv, hpv⟩ := List.mem_flatMap.mp hp
      exact hcomplete v hv p hpv
    obtain ⟨infos, -, hmake⟩ := makeRepositoryInfoList_of_complete tsString repos hall
    exact ⟨repos, _, hrepos, hmake,
      Handle_of_listing fuel env newSession api tsString s3Client config repos _ _ hload
        hsession hlist hmake⟩

/-- C2, amended, at five scenarios: an incomplete configuration and a provider
that fails on page 2 end with that error and no write; a session that cannot
be created ends in a panic with no request and no write; an upload refused
with access-denied ends with that error after the one write attempt; and on a
page chain that never ends no write has been attempted, whatever the fuel. -/
theorem Handle_no_partial_publish_witness :
    Handle 5 (envOf [("GITHUB_ACCESS_TOKEN", "t0k3n"), ("GITHUB_ORGANIZATION", "acme"),
        ("S3_BUCKET", "bucket")]) workingSession acmeApi (fun t : String => t) acceptingS3
      = ⟨.returned none (some (.errorString "S3_KEY undefined")), [], []⟩ ∧
    Handle 5 acmeEnv workingSession failingSecondPageApi (fun t : String => t) acceptingS3
      = ⟨.returned none (some (.other "403 API rate limit exceeded")),
          [⟨1, 100⟩, ⟨2, 100⟩], []⟩ ∧
    Handle 5 acmeBundleEnv missingBundleSession acmeApi (fun t : String => t) acceptingS3
      = ⟨.panicked (.value (.awserr "LoadCustomCABundleError"
          "unable to open custom CA bundle PEM file")), [], []⟩ ∧
    (∃ body,
      Handle 5 acmeEnv workingSession acmeApi (fun t : String => t) accessDeniedS3
        = ⟨.returned none (some (.awserr "AccessDenied" "Access Denied")),
            [⟨1, 100⟩], [⟨"public-read", "bucket", "repos.json", body⟩]⟩) ∧
    ∀ fuel, (Handle fuel acmeEnv workingSession cyclicApi (fun t : String => t)
        acceptingS3).puts = [] := by
  refine ⟨?_, ?_, ?_, ?_, ?_⟩
  · exact (Handle_no_partial_publish 5 _ workingSession acmeApi (fun t : String => t)
      acceptingS3).2.1 _ rfl
  · exact (Handle_no_partial_publish 5 acmeEnv workingSession failingSecondPageApi
      (fun t : String => t) acceptingS3).2.2.2.1 ⟨"t0k3n", "acme", "bucket", "repos.json"⟩
      [(1, .lit [some libA])] 2 (.other "403 API rate limit exceeded") rfl rfl
      ⟨rfl, by decide, 2, rfl, rfl⟩ (by decide) rfl (by decide)
  · exact (Handle_no_partial_publish 5 acmeBundleEnv missingBundleSession acmeApi
      (fun t : String => t) acceptingS3).2.2.1 ⟨"t0k3n", "acme", "bucket", "repos.json"⟩ _
      rfl rfl
  · obtain ⟨repos, repoInfos, -, -, h⟩ :=
      (Handle_no_partial_publish 5 acmeEnv workingSession acmeApi (fun t : String => t)
        accessDeniedS3).2.2.2.2 ⟨"t0k3n", "acme", "bucket", "repos.json"⟩
        [(1, .lit [some libA, some libB])] rfl rfl ⟨rfl, by decide, 0, rfl, rfl⟩ (by decide)
        (by decide)
    exact ⟨_, h⟩
  · intro fuel
    obtain ⟨hlen, hputs, -, -⟩ :=
      (Handle_no_partial_publish fuel acmeEnv workingSession cyclicApi (fun t : String => t)
        acceptingS3).1 _ rfl
    by_contra hne
    obtain ⟨config, visits, hload, -, hpath⟩ := hputs hne
    have hconfig : config = ⟨"t0k3n", "acme", "bucket", "repos.json"⟩ :=
      (Except.ok.inj hload).symm
    subst hconfig
    have hnever : ∀ (visits : List (Int × GoSlice (Ptr (Repository String)))) (p : Int),
        p ≠ 0 → ¬ PagePath (cyclicApi "t0k3n") "acme" p visits 0 := by
      intro visits
      induction visits with
      | nil => intro p hp h; exact hp h
      | cons v rest ih =>
        intro p hp h
        obtain ⟨page, items⟩ := v
        obtain ⟨-, -, next, hcall, hrest⟩ := h
        simp only [cyclicApi, Except.ok.injEq, Prod.mk.injEq, Response.mk.injEq] at hcall
        rw [← hcall.2] at hrest
        exact ih 1 (by decide) hrest
    exact hnever visits 1 (by decide) hpath

/-! ## JSON strings -/

theorem hexVal_hex (d : Nat) (h : d < 16) : json.hexVal (json.hex d) = some d := by
  interval_cases d <;> rfl

/-- What the decoder reads back from the escape sequence of one character. -/
theorem unquoteRune_escapeRune (c : Char) :
    ∃ h t, json.escapeRune c = h :: t ∧ h ≠ '"' ∧
      ∀ tail, json.unquoteRune (h :: t ++ tail) = some (c, tail) := by
  unfold json.escapeRune
  split_ifs with h1 h2 h3 h4 h5 h6
  · refine ⟨'\\', [c], rfl, by decide, ?_⟩
    intro tail
    rcases h1 with h1 | h1 <;> subst h1 <;> rfl
  · subst h2; exact ⟨'\\', ['n'], rfl, by decide, fun _ => rfl⟩
  · subst h3; exact ⟨'\\', ['r'], rfl, by decide, fun _ => rfl⟩
  · subst h4; exact ⟨'\\', ['t'], rfl, by decide, fun _ => rfl⟩
  · refine ⟨'\\', _, rfl, by decide, ?_⟩
    intro tail
    have hlt : c.toNat < 256 := by
      rcases h5 with h5 | h5 | h5 | h5
      · omega
      all_goals (subst h5; decide)
    have ha : json.hexVal (json.hex (c.toNat / 16)) = some (c.toNat / 16) :=
      hexVal_hex _ (by omega)
    have hb : json.hexVal (json.hex (c.toNat % 16)) = some (c.toNat % 16) :=
      hexVal_hex _ (by omega)
    have h0 : json.hexVal '0' = some 0 := rfl
    have hval : c.toNat / 16 * 16 + c.toNat % 16 = c.toNat := by omega
    have hns : ¬ (55296 ≤ c.toNat ∧ c.toNat < 57344) := by omega
    simp [json.unquoteRune, json.getu4, ha, hb, h0, hval, hns, Char.ofNat_toNat]
  · refine ⟨'\\', _, rfl, by decide, ?_⟩
    intro tail
    have hb : json.hexVal (json.hex (c.toNat % 16)) = some (c.toNat % 16) :=
      hexVal_hex _ (by omega)
    have h0 : json.hexVal '0' = some 0 := rfl
    have h2 : json.hexVal '2' = some 2 := rfl
    have hval : 8224 + c.toNat % 16 = c.toNat := by omega
    have hns : ¬ (55296 ≤ c.toNat ∧ c.toNat < 57344) := by omega
    simp [json.unquoteRune, json.getu4, hb, h0, h2, hval, hns, Char.ofNat_toNat]
  · push_neg at h1 h5
    refine ⟨c, [], rfl, h1.1, ?_⟩
    intro tail
    have h32 : ¬ c.toNat < 32 := by omega
    simp [json.unquoteRune, h1.1, h1.2, h32]


theorem escapeRune_length_pos (c : Char) : 1 ≤ (json.escapeRune c).length := by
  obtain ⟨h, t, he, -, -⟩ := unquoteRune_escapeRune c
  rw [he]; simp

theorem flatMap_escapeRune_length (s : List Char) :
    s.length ≤ (s.flatMap json.escapeRune).length := by
  induction s with
  | nil => simp
  | cons c s ih =>
    have := escapeRune_length_pos c
    simp only [List.flatMap_cons, List.length_append, List.length_cons]
    omega

/-- The body of an encoded string reads back as the string. -/
theorem parseStringBody_escape (s : List Char) :
    ∀ (fuel : Nat) (tail : List Char), s.length < fuel →
      json.parseStringBody fuel (s.flatMap json.escapeRune ++ '"' :: tail) = some (s, tail) := by
  induction s with
  | nil =>
    intro fuel tail hfuel
    obtain ⟨k, rfl⟩ : ∃ k, fuel = k + 1 := ⟨fuel - 1, by simp at hfuel; omega⟩
    simp [json.parseStringBody]
  | cons c s ih =>
    intro fuel tail hfuel
    obtain ⟨k, rfl⟩ : ∃ k, fuel = k + 1 := ⟨fuel - 1, by omega⟩
    obtain ⟨h, t, he, hq, hu⟩ := unquoteRune_escapeRune c
    have hk : s.length < k := by simp at hfuel; omega
    have hin : (c :: s).flatMap json.escapeRune ++ '"' :: tail
        = h :: (t ++ (s.flatMap json.escapeRune ++ '"' :: tail)) := by
      simp [List.flatMap_cons, he]
    rw [hin, json.parseStringBody]
    simp only [hq, if_false]
    have hu' := hu (s.flatMap json.escapeRune ++ '"' :: tail)
    rw [List.cons_append] at hu'
    rw [hu']
    simp only [ih k tail hk, Option.map_some']

/-- An encoded string, after its opening quote, reads back as the string. -/
theorem parseString_encode (s : String) (tail : List Char) :
    json.parseString (s.toList.flatMap json.escapeRune ++ '"' :: tail) = some (s, tail) := by
  rw [json.parseString, parseStringBody_escape]
  · rfl
  · have := flatMap_escapeRune_length s.toList
    simp only [List.length_append, List.length_cons]
    omega

theorem encodeString_append (s : String) (tail : List Char) :
    json.encodeString s ++ tail = '"' :: (s.toList.flatMap json.escapeRune ++ '"' :: tail) := by
  simp [json.encodeString]

/-! ## JSON numbers -/

theorem digit_toNat (u : Nat) (h : u < 10) : (Char.ofNat (48 + u)).toNat = 48 + u := by
  interval_cases u <;> rfl

theorem digit_isDigit (u : Nat) (h : u < 10) : json.isDigit (Char.ofNat (48 + u)) = true := by
  interval_cases u <;> rfl

theorem formatBits_acc :
    ∀ (fuel u : Nat) (acc : List Char),
      strconv.formatBits fuel u acc = strconv.formatBits fuel u [] ++ acc := by
  intro fuel
  induction fuel with
  | zero => intro u acc; rfl
  | succ fuel ih =>
    intro u acc
    rw [strconv.formatBits, strconv.formatBits]
    split_ifs with h
    · rfl
    · rw [ih (u / 10) (_ :: acc), ih (u / 10) [_]]
      simp

/-- The digits of a natural number: a non-empty run of digits without a
leading zero (but for the number zero) whose value is the number. -/
theorem formatBits_spec :
    ∀ (fuel u : Nat), u < fuel →
      strconv.formatBits fuel u [] ≠ [] ∧
      (strconv.formatBits fuel u []).all json.isDigit = true ∧
      strconv.digitsValue (strconv.formatBits fuel u []) = u ∧
      ((strconv.formatBits fuel u []).head? = some '0' →
        (strconv.formatBits fuel u []).length = 1) := by
  intro fuel
  induction fuel with
  | zero => intro u h; omega
  | succ fuel ih =>
    intro u hu
    rw [strconv.formatBits]
    split_ifs with h
    · refine ⟨by simp, by simp [digit_isDigit u h], ?_, by simp⟩
      simp [strconv.digitsValue, digit_toNat u h]
    · have hdiv : u / 10 < fuel := by omega
      obtain ⟨h1, h2, h3, h4⟩ := ih (u / 10) hdiv
      rw [formatBits_acc]
      have hmod : u % 10 < 10 := Nat.mod_lt _ (by decide)
      refine ⟨by simp, ?_, ?_, ?_⟩
      · simp only [List.all_append, h2, List.all_cons, digit_isDigit _ hmod, List.all_nil,
          Bool.and_self]
      · simp only [strconv.digitsValue, List.foldl_append, List.foldl_cons, List.foldl_nil,
          digit_toNat _ hmod] at h3 ⊢
        rw [h3]; omega
      · intro hhead
        exfalso
        cases hds : strconv.formatBits fuel (u / 10) [] with
        | nil => exact h1 hds
        | cons d ds =>
          rw [hds] at hhead h4 h3
          simp only [List.cons_append, List.head?_cons, Option.some.injEq] at hhead
          subst hhead
          have hlen := h4 rfl
          simp only [List.length_cons, add_left_eq_self, List.length_eq_zero] at hlen
          subst hlen
          simp [strconv.digitsValue] at h3
          omega


theorem isDigit_facts (c : Char) (h : json.isDigit c = true) :
    c ≠ '-' ∧ c ≠ '+' ∧ c ≠ '"' ∧ c ≠ '[' ∧ c ≠ '{' ∧ json.isSpace c = false ∧
      json.isNumberChar c = true := by
  have hc : 48 ≤ c.toNat ∧ c.toNat ≤ 57 := by
    simpa [json.isDigit] using h
  refine ⟨?_, ?_, ?_, ?_, ?_, ?_, by simp [json.isNumberChar, h]⟩
  · rintro rfl; revert hc; decide
  · rintro rfl; revert hc; decide
  · rintro rfl; revert hc; decide
  · rintro rfl; revert hc; decide
  · rintro rfl; revert hc; decide
  · simp only [json.isSpace, Bool.or_eq_false_iff, decide_eq_false_iff_not]
    refine ⟨⟨⟨?_, ?_⟩, ?_⟩, ?_⟩ <;> (rintro rfl; revert hc; decide)

theorem takeWhile_dropWhile_append (p : Char → Bool) (l tail : List Char)
    (hall : l.all p = true) (htail : ∀ h t, tail = h :: t → p h = false) :
    (l ++ tail).takeWhile p = l ∧ (l ++ tail).dropWhile p = tail := by
  induction l with
  | nil =>
    cases tail with
    | nil => simp
    | cons h t => simp [List.takeWhile, List.dropWhile, htail h t rfl]
  | cons c l ih =>
    simp only [List.all_cons, Bool.and_eq_true] at hall
    obtain ⟨h1, h2⟩ := ih hall.2
    simp [List.takeWhile, List.dropWhile, hall.1, h1, h2]

/-- The shape of `strconv.FormatInt i`: an optional minus sign and the digits
of the absolute value. -/
theorem FormatInt_shape (i : Int) :
    ∃ ds, ds ≠ [] ∧ ds.all json.isDigit = true ∧ strconv.digitsValue ds = i.natAbs ∧
      (ds.head? = some '0' → ds.length = 1) ∧
      strconv.FormatInt i = if i < 0 then '-' :: ds else ds := by
  obtain ⟨h1, h2, h3, h4⟩ := formatBits_spec (i.natAbs + 1) i.natAbs (Nat.lt_succ_self _)
  exact ⟨_, h1, h2, h3, h4, rfl⟩

/-- `strconv.ParseInt` reads back what `strconv.FormatInt` writes for a 64 bit
integer. -/
theorem ParseInt_FormatInt (i : Int) (hlo : -(2 ^ 63 : Int) ≤ i) (hhi : i < 2 ^ 63) :
    strconv.ParseInt (strconv.FormatInt i) = some i := by
  obtain ⟨ds, hne, hall, hval, -, hshape⟩ := FormatInt_shape i
  rw [hshape]
  have hemp : ds.isEmpty = false := by
    cases ds with
    | nil => exact absurd rfl hne
    | cons d r => rfl
  split_ifs with hneg
  · have hun : i.natAbs ≤ 2 ^ 63 := by omega
    have hi : -(i.natAbs : Int) = i := by omega
    simp only [strconv.ParseInt, true_or, if_true, decide_True, hemp, hall, Bool.not_true,
      Bool.or_self, Bool.false_eq_true, if_false, hval, hun, hi]
  · cases ds with
    | nil => exact absurd rfl hne
    | cons d r =>
      have hd : json.isDigit d = true := by
        simp only [List.all_cons, Bool.and_eq_true] at hall
        exact hall.1
      obtain ⟨hm, hp, -⟩ := isDigit_facts d hd
      have hun : i.natAbs < 2 ^ 63 := by omega
      have hi : (i.natAbs : Int) = i := by omega
      have hall' : (d :: r).all json.isDigit = true := hall
      simp only [strconv.ParseInt, hm, hp, or_self, if_false, decide_False, hall',
        List.isEmpty_cons, Bool.not_true, Bool.or_self, Bool.false_eq_true, hval, hun,
        if_true, hi]

/-- What `strconv.FormatInt` writes follows the grammar of a JSON number. -/
theorem validNumber_FormatInt (i : Int) : json.validNumber (strconv.FormatInt i) = true := by
  obtain ⟨ds, hne, hall, -, hzero, hshape⟩ := FormatInt_shape i
  have hstrip : json.stripMinus (strconv.FormatInt i) = ds := by
    rw [hshape]
    split_ifs with hneg
    · simp [json.stripMinus]
    · cases ds with
      | nil => rfl
      | cons d r =>
        have hd : json.isDigit d = true := by
          simp only [List.all_cons, Bool.and_eq_true] at hall
          exact hall.1
        simp [json.stripMinus, (isDigit_facts d hd).1]
  obtain ⟨ht, hd⟩ := takeWhile_dropWhile_append json.isDigit ds [] hall (by simp)
  rw [List.append_nil] at ht hd
  simp only [json.validNumber, hstrip, ht, hd, json.skipFraction, Option.bind_some,
    json.skipExponent]
  cases ds with
  | nil => exact absurd rfl hne
  | cons d r =>
    by_cases h0 : d = '0'
    · have hlen := hzero (by simp [h0])
      have hr : r = [] := by simpa using hlen
      simp [h0, hr]
    · simp [h0]

/-- A number written by `strconv.FormatInt` and followed by a delimiter is read
as one number literal. -/
theorem parseNumber_FormatInt (i : Int) (tail : List Char)
    (htail : ∀ h t, tail = h :: t → json.isNumberChar h = false) :
    json.parseNumber (strconv.FormatInt i ++ tail) = some (.num (strconv.FormatInt i), tail) := by
  have hall : (strconv.FormatInt i).all json.isNumberChar = true := by
    obtain ⟨ds, -, hall, -, -, hshape⟩ := FormatInt_shape i
    have hds : ds.all json.isNumberChar = true := by
      rw [List.all_eq_true] at hall ⊢
      intro c hc
      exact (isDigit_facts c (hall c hc)).2.2.2.2.2.2
    rw [hshape]
    split_ifs
    · simp only [List.all_cons, hds, Bool.and_true]; rfl
    · exact hds
  obtain ⟨ht, hd⟩ := takeWhile_dropWhile_append json.isNumberChar _ tail hall htail
  simp [json.parseNumber, ht, hd, validNumber_FormatInt]

/-- The first character of a number written by `strconv.FormatInt`. -/
theorem FormatInt_head (i : Int) :
    ∃ c r, strconv.FormatInt i = c :: r ∧ (c = '-' ∨ json.isDigit c = true) := by
  obtain ⟨ds, hne, hall, -, -, hshape⟩ := FormatInt_shape i
  rw [hshape]
  split_ifs
  · exact ⟨'-', ds, rfl, Or.inl rfl⟩
  · cases ds with
    | nil => exact absurd rfl hne
    | cons d r =>
      simp only [List.all_cons, Bool.and_eq_true] at hall
      exact ⟨d, r, rfl, Or.inr hall.1⟩


/-! ## JSON values -/

theorem skipSpace_cons (c : Char) (cs : List Char) (h : json.isSpace c = false) :
    json.skipSpace (c :: cs) = c :: cs := by
  simp [json.skipSpace, List.dropWhile, h]

/-- An encoded field value followed by a delimiter reads back as its value. -/
theorem parseValue_field (v : FieldValue) (fuel : Nat) (tail : List Char)
    (htail : ∀ h t, tail = h :: t → json.isNumberChar h = false) :
    json.parseValue (fuel + 1) (json.encodeField v ++ tail) = some (v.toJSON, tail) := by
  cases v with
  | string s =>
    rw [json.encodeField, encodeString_append, json.parseValue,
      skipSpace_cons _ _ (by decide)]
    simp only [if_true, parseString_encode, Option.map_some', FieldValue.toJSON]
  | int i =>
    obtain ⟨c, r, hcr, hc⟩ := FormatInt_head i
    have hnum := parseNumber_FormatInt i tail htail
    have hfacts : c ≠ '"' ∧ c ≠ '[' ∧ c ≠ '{' ∧ json.isSpace c = false := by
      rcases hc with rfl | hd
      · decide
      · obtain ⟨-, -, h3, h4, h5, h6, -⟩ := isDigit_facts c hd
        exact ⟨h3, h4, h5, h6⟩
    obtain ⟨h1, h2, h3, h4⟩ := hfacts
    rw [json.encodeField, FieldValue.toJSON]
    rw [hcr, List.cons_append] at hnum ⊢
    rw [json.parseValue, skipSpace_cons _ _ h4]
    simp only [h1, h2, h3, if_false, hc, if_true, hnum]

theorem parseValue_null (fuel : Nat) (tail : List Char) :
    json.parseValue (fuel + 1) ('n' :: 'u' :: 'l' :: 'l' :: tail) = some (.null, tail) := by
  rw [json.parseValue, skipSpace_cons _ _ (by decide)]
  simp [json.isDigit]

theorem comma_not_numberChar (rest : List Char) :
    ∀ h t, ',' :: rest = h :: t → json.isNumberChar h = false := by
  intro h t e
  cases e
  decide

theorem brace_not_numberChar (rest : List Char) :
    ∀ h t, '}' :: rest = h :: t → json.isNumberChar h = false := by
  intro h t e
  cases e
  decide

theorem encodeMembers_single (kv : String × FieldValue) (tail : List Char) :
    json.encodeMembers [kv] ++ tail
      = '"' :: (kv.1.toList.flatMap json.escapeRune ++
          '"' :: ':' :: (json.encodeField kv.2 ++ tail)) := by
  simp [json.encodeMembers, json.encodeString]

theorem encodeMembers_cons (kv kv2 : String × FieldValue) (rest : List (String × FieldValue))
    (tail : List Char) :
    json.encodeMembers (kv :: kv2 :: rest) ++ tail
      = '"' :: (kv.1.toList.flatMap json.escapeRune ++
          '"' :: ':' :: (json.encodeField kv.2 ++
            ',' :: (json.encodeMembers (kv2 :: rest) ++ tail))) := by
  simp [json.encodeMembers, json.encodeString]

/-- One member of an object: what `parseMembers` does with an encoded key, the
colon and an encoded field value. -/
theorem parseMembers_step (kv : String × FieldValue) (fuel : Nat) (d : Char)
    (rest : List Char) (hd : json.isNumberChar d = false) (hs : json.isSpace d = false) :
    json.parseMembers (fuel + 1 + 1)
        ('"' :: (kv.1.toList.flatMap json.escapeRune ++
          '"' :: ':' :: (json.encodeField kv.2 ++ d :: rest)))
      = if d = ',' then
          (json.parseMembers (fuel + 1) rest).map (fun p => ((kv.1, kv.2.toJSON) :: p.1, p.2))
        else if d = '}' then some ([(kv.1, kv.2.toJSON)], rest)
        else none := by
  have hv := parseValue_field kv.2 fuel (d :: rest) (by
    intro h t e
    cases e
    exact hd)
  rw [json.parseMembers, skipSpace_cons _ _ (by decide)]
  simp only [if_true, parseString_encode]
  rw [skipSpace_cons _ _ (by decide)]
  simp only [if_true, hv]
  rw [skipSpace_cons _ _ hs]

/-- The encoded members of an object, up to its closing brace, read back as
the members. -/
theorem parseMembers_encode :
    ∀ (kvs : List (String × FieldValue)) (kv : String × FieldValue) (fuel : Nat)
      (tail : List Char), kvs.length + 2 ≤ fuel →
      json.parseMembers fuel (json.encodeMembers (kv :: kvs) ++ '}' :: tail)
        = some ((kv :: kvs).map (fun m => (m.1, m.2.toJSON)), tail) := by
  intro kvs
  induction kvs with
  | nil =>
    intro kv fuel tail hfuel
    obtain ⟨k, rfl⟩ : ∃ k, fuel = (k + 1) + 1 := ⟨fuel - 2, by simp at hfuel; omega⟩
    rw [encodeMembers_single, parseMembers_step kv k '}' tail (by decide) (by decide)]
    simp
  | cons kv2 rest ih =>
    intro kv fuel tail hfuel
    obtain ⟨k, rfl⟩ : ∃ k, fuel = (k + 1) + 1 := ⟨fuel - 2, by simp at hfuel; omega⟩
    have hk : rest.length + 2 ≤ k + 1 := by simp at hfuel; omega
    rw [encodeMembers_cons, parseMembers_step kv k ',' _ (by decide) (by decide)]
    simp only [if_true, ih kv2 (k + 1) tail hk]
    simp

/-- An encoded struct reads back as the object of its seven fields. -/
theorem parseValue_struct (r : RepositoryInfo) (fuel : Nat) (tail : List Char)
    (hfuel : 9 ≤ fuel) :
    json.parseValue fuel (json.encodeStruct r ++ tail) = some (r.toJSON, tail) := by
  obtain ⟨k, rfl⟩ : ∃ k, fuel = k + 1 := ⟨fuel - 1, by omega⟩
  have hm := parseMembers_encode
    [("description", .string r.Description), ("stars", .int r.Stars), ("forks", .int r.Forks),
      ("language", .string r.Language), ("pushed_at", .string r.PushedAt),
      ("url", .string r.URL)] ("name", .string r.Name) k tail (by simp; omega)
  have hstart : json.encodeStruct r ++ tail
      = '{' :: (json.encodeMembers r.jsonFields ++ '}' :: tail) := by
    simp [json.encodeStruct]
  rw [hstart, json.parseValue, skipSpace_cons _ _ (by decide)]
  simp only [Char.reduceEq, if_false, if_true]
  have hhead : ∃ rest, json.encodeMembers r.jsonFields ++ '}' :: tail = '"' :: rest := by
    rw [RepositoryInfo.jsonFields, encodeMembers_cons]
    exact ⟨_, rfl⟩
  obtain ⟨rest, hrest⟩ := hhead
  have hm' : json.parseMembers k ('"' :: rest) = some (_, tail) := hrest ▸ hm
  rw [hrest, skipSpace_cons _ _ (by decide)]
  simp only [Char.reduceEq, if_false, hm', Option.map_some']
  rfl

/-- An encoded pointer reads back as its value. -/
theorem parseValue_ptr (p : Ptr RepositoryInfo) (fuel : Nat) (tail : List Char)
    (hfuel : 9 ≤ fuel) :
    json.parseValue fuel (json.encodePtr p ++ tail) = some (ptrToJSON p, tail) := by
  cases p with
  | none =>
    obtain ⟨k, rfl⟩ : ∃ k, fuel = k + 1 := ⟨fuel - 1, by omega⟩
    exact parseValue_null k tail
  | some r => exact parseValue_struct r fuel tail hfuel


theorem encodePtr_head (p : Ptr RepositoryInfo) :
    ∃ c rest, json.encodePtr p = c :: rest ∧ 3 ≤ rest.length ∧ c ≠ ']' ∧
      json.isSpace c = false := by
  cases p with
  | none => exact ⟨'n', ['u', 'l', 'l'], rfl, by simp, by decide, by decide⟩
  | some r =>
    refine ⟨'{', _, rfl, ?_, by decide, by decide⟩
    simp [RepositoryInfo.jsonFields, json.encodeMembers, json.encodeString]
    omega

theorem encodeElements_single (p : Ptr RepositoryInfo) (tail : List Char) :
    json.encodeElements [p] ++ tail = json.encodePtr p ++ tail := by
  simp [json.encodeElements]

theorem encodeElements_cons (p p2 : Ptr RepositoryInfo) (rest : List (Ptr RepositoryInfo))
    (tail : List Char) :
    json.encodeElements (p :: p2 :: rest) ++ tail
      = json.encodePtr p ++ ',' :: (json.encodeElements (p2 :: rest) ++ tail) := by
  simp [json.encodeElements]

theorem encodeElements_length (ps : List (Ptr RepositoryInfo)) :
    4 * ps.length ≤ (json.encodeElements ps).length := by
  induction ps with
  | nil => simp
  | cons p rest ih =>
    obtain ⟨c, r, hp, hlen, -, -⟩ := encodePtr_head p
    cases rest with
    | nil => simp [json.encodeElements, hp]; omega
    | cons p2 rest =>
      have := encodeElements_cons p p2 rest []
      simp only [List.append_nil] at this
      rw [this, hp]
      simp only [List.length_cons, List.length_append] at ih ⊢
      omega

/-- The encoded elements of an array, up to its closing bracket, read back as
the elements. -/
theorem parseElements_encode :
    ∀ (ps : List (Ptr RepositoryInfo)) (p : Ptr RepositoryInfo) (fuel : Nat)
      (tail : List Char), ps.length + 10 ≤ fuel →
      json.parseElements fuel (json.encodeElements (p :: ps) ++ ']' :: tail)
        = some ((p :: ps).map ptrToJSON, tail) := by
  intro ps
  induction ps with
  | nil =>
    intro p fuel tail hfuel
    obtain ⟨k, rfl⟩ : ∃ k, fuel = k + 1 := ⟨fuel - 1, by omega⟩
    rw [encodeElements_single, json.parseElements,
      parseValue_ptr p k _ (by simp at hfuel; omega)]
    simp only [skipSpace_cons _ _ (show json.isSpace ']' = false by decide)]
    simp
  | cons p2 rest ih =>
    intro p fuel tail hfuel
    obtain ⟨k, rfl⟩ : ∃ k, fuel = k + 1 := ⟨fuel - 1, by omega⟩
    have hk : rest.length + 10 ≤ k := by simp at hfuel; omega
    rw [encodeElements_cons, json.parseElements, parseValue_ptr p k _ (by omega)]
    simp only [skipSpace_cons _ _ (show json.isSpace ',' = false by decide)]
    simp only [if_true, ih p2 k tail hk]
    simp

/-- The encoding of a slice parses as the JSON value it denotes. -/
theorem parse_encodeSlice (c : GoSlice (Ptr RepositoryInfo)) :
    json.parse (json.encodeSlice c) = some (sliceToJSON c) := by
  cases c with
  | nil => rfl
  | lit xs =>
    cases xs with
    | nil => rfl
    | cons p ps =>
      have hlen := encodeElements_length (p :: ps)
      obtain ⟨ch, rest, hp, -, hch, hsp⟩ := encodePtr_head p
      have hhead : ∃ rest', json.encodeElements (p :: ps) ++ [']'] = ch :: rest' := by
        cases ps with
        | nil => rw [encodeElements_single, hp]; exact ⟨_, rfl⟩
        | cons p2 ps => rw [encodeElements_cons, hp]; exact ⟨_, rfl⟩
      obtain ⟨rest', hrest'⟩ := hhead
      have hfuel : ∃ k, 2 * (json.encodeSlice (.lit (p :: ps))).length + 2 = k + 1 ∧
          ps.length + 10 ≤ k := by
        refine ⟨2 * (json.encodeSlice (.lit (p :: ps))).length + 1, rfl, ?_⟩
        simp only [json.encodeSlice, List.length_cons, List.length_append, List.length_nil]
          at hlen ⊢
        omega
      obtain ⟨k, hk1, hk2⟩ := hfuel
      have he := parseElements_encode ps p k [] hk2
      rw [json.parse, hk1]
      simp only [json.encodeSlice]
      rw [json.parseValue, skipSpace_cons _ _ (by decide)]
      simp only [Char.reduceEq, if_false, if_true]
      rw [hrest'] at he ⊢
      rw [skipSpace_cons _ _ hsp]
      simp only [hch, if_false, he, Option.map_some']
      rfl

/-! ## Decoding -/

/-- The object of a summary decodes to the summary. -/
theorem decodePtr_toJSON (p : Ptr RepositoryInfo) (h : ∀ r, p = some r → r.inRange) :
    json.decodePtr (ptrToJSON p) = some p := by
  cases p with
  | none => rfl
  | some r =>
    obtain ⟨⟨h1, h2⟩, ⟨h3, h4⟩⟩ := h r rfl
    have hs := ParseInt_FormatInt r.Stars h1 h2
    have hf := ParseInt_FormatInt r.Forks h3 h4
    have hname : json.findField "name" = some "name" := by decide
    have hdesc : json.findField "description" = some "description" := by decide
    have hstars : json.findField "stars" = some "stars" := by decide
    have hforks : json.findField "forks" = some "forks" := by decide
    have hlang : json.findField "language" = some "language" := by decide
    have hpushed : json.findField "pushed_at" = some "pushed_at" := by decide
    have hurl : json.findField "url" = some "url" := by decide
    simp only [ptrToJSON, RepositoryInfo.toJSON, json.decodePtr, json.decodeMembers, hname,
      hdesc, hstars, hforks, hlang, hpushed, hurl, json.setField, json.storeString,
      json.storeInt, hs, hf, Option.map_some', String.reduceEq, if_true, if_false]

theorem decodeElements_toJSON (ps : List (Ptr RepositoryInfo))
    (h : ∀ r, some r ∈ ps → r.inRange) :
    json.decodeElements (ps.map ptrToJSON) = some ps := by
  induction ps with
  | nil => rfl
  | cons p rest ih =>
    have hp : json.decodePtr (ptrToJSON p) = some p :=
      decodePtr_toJSON p (fun r hr => h r (hr ▸ List.mem_cons_self _ _))
    have hrest := ih (fun r hr => h r (List.mem_cons_of_mem _ hr))
    simp only [List.map_cons, json.decodeElements, hp, hrest, Option.map_some']

theorem decodeSlice_toJSON (c : GoSlice (Ptr RepositoryInfo))
    (h : ∀ r, some r ∈ c.toList → r.inRange) :
    json.decodeSlice (sliceToJSON c) = some c := by
  cases c with
  | nil => rfl
  | lit xs =>
    simp only [sliceToJSON, json.decodeSlice, decodeElements_toJSON xs h, Option.map_some']

/-- C7: for every collection of summaries (nil pointers and the nil slice
included) whose counters are 64 bit integers, `json.Marshal` succeeds and
decoding its output gives back the collection, equal in every field of every
element and in the same order. -/
theorem json_round_trip (c : GoSlice (Ptr RepositoryInfo))
    (h : ∀ r, some r ∈ c.toList → r.inRange) :
    ∃ data, json.Marshal c = .ok data ∧ json.Unmarshal data = some c := by
  refine ⟨json.encodeSlice c, rfl, ?_⟩
  rw [json.Unmarshal, parse_encodeSlice, Option.some_bind, decodeSlice_toJSON c h]


/-- C7 at a collection with a nil pointer between the summaries of "lib-a" and
"lib-b". -/
theorem json_round_trip_witness :
    ∃ data, json.Marshal (.lit [some infoA, none, some infoB]) = .ok data ∧
      json.Unmarshal data = some (.lit [some infoA, none, some infoB]) :=
  json_round_trip (.lit [some infoA, none, some infoB]) (by
    intro r hr
    simp only [GoSlice.toList, List.mem_cons, Option.some.injEq, List.mem_singleton,
      List.not_mem_nil, or_false, reduceCtorEq, false_or] at hr
    rcases hr with rfl | rfl <;>
      exact ⟨⟨by decide, by decide⟩, ⟨by decide, by decide⟩⟩)

/-- C8: the body uploaded for a non-empty collection of summaries is a JSON
array with one object per summary, in collection order; every object has
exactly the members name, description, stars, forks, language, pushed_at and
url, none left out, the strings as JSON strings and the two counters as
integer literals. -/
theorem published_shape (c : GoSlice (Ptr RepositoryInfo)) (summaries : List RepositoryInfo)
    (hc : c.toList = summaries.map some) (hne : summaries ≠ [])
    (client : PutObject) (bucket key : String) :
    ∃ data objs,
      (writeToS3 client bucket key c).2 = [⟨"public-read", bucket, key, data⟩] ∧
      json.parse data = some (.arr objs) ∧
      objs.length = summaries.length ∧
      ∀ (i : Nat) (r : RepositoryInfo), summaries[i]? = some r →
        objs[i]? = some (.obj
          [("name", .str r.Name), ("description", .str r.Description),
           ("stars", .num (strconv.FormatInt r.Stars)),
           ("forks", .num (strconv.FormatInt r.Forks)),
           ("language", .str r.Language), ("pushed_at", .str r.PushedAt),
           ("url", .str r.URL)]) := by
  cases c with
  | nil =>
    cases summaries with
    | nil => exact absurd rfl hne
    | cons r rest => simp [GoSlice.toList] at hc
  | lit xs =>
    simp only [GoSlice.toList] at hc
    subst hc
    refine ⟨json.encodeSlice (.lit (summaries.map some)), summaries.map RepositoryInfo.toJSON,
      rfl, ?_, by simp, ?_⟩
    · rw [parse_encodeSlice]
      simp only [sliceToJSON, List.map_map]
      rfl
    · intro i r hi
      rw [List.getElem?_map, hi]
      rfl

/-- C8 at the scenario of organization "acme": the projection of "lib-a" (no
description) and "lib-b" (no language) is published as an array of two objects
with the seven members each, the description of "lib-a" and the language of
"lib-b" being empty strings. -/
theorem published_shape_witness :
    makeRepositoryInfoList (fun t : String => t) (.lit [some libA, some libB])
      = .ok (.lit [some infoA, some infoB]) ∧
    ∃ data,
      Handle 5 acmeEnv workingSession acmeApi (fun t : String => t) acceptingS3
        = ⟨.returned none none, [⟨1, 100⟩],
            [⟨"public-read", "bucket", "repos.json", data⟩]⟩ ∧
      json.parse data = some (.arr
        [.obj [("name", .str "lib-a"), ("description", .str ""),
            ("stars", .num ['1', '0']), ("forks", .num ['2']), ("language", .str "Go"),
            ("pushed_at", .str "2017-06-01 12:00:00 +0000 UTC"),
            ("url", .str "https://github.com/acme/lib-a")],
         .obj [("name", .str "lib-b"), ("description", .str "demo"),
            ("stars", .num ['3']), ("forks", .num ['0']), ("language", .str ""),
            ("pushed_at", .str "2017-06-02 08:30:00 +0000 UTC"),
            ("url", .str "https://github.com/acme/lib-b")]]) := by
  refine ⟨rfl, ?_⟩
  obtain ⟨data, objs, hput, hparse, hlen, hget⟩ :=
    published_shape (.lit [some infoA, some infoB]) [infoA, infoB] rfl (by simp)
      acceptingS3 "bucket" "repos.json"
  have hdata : data = json.encodeSlice (.lit [some infoA, some infoB]) := by
    rw [writeToS3_eq] at hput
    simp only [List.cons.injEq, PutObjectInput.mk.injEq, true_and, and_true] at hput
    exact hput.symm
  have h0 := hget 0 infoA rfl
  have h1 := hget 1 infoB rfl
  match objs, hlen, h0, h1 with
  | [a, b], _, h0, h1 =>
    simp only [List.getElem?_cons_zero, List.getElem?_cons_succ, Option.some.injEq] at h0 h1
    subst h0 h1 hdata
    exact ⟨_, rfl, hparse⟩


end CacheRepos
